import Mathlib

/-!
Verification of the graph engine of the AISD3 repository (src/main.py).

The Python class `Graph` keeps three synchronized representations of the
edge set (adjacency list, adjacency matrix, edge list) and implements
BFS, DFS, Kahn's topological sort and a DFS-based ("tarjan") topological
sort with 3-color cycle detection.  This file is a shallow embedding of
that code: lists model Python lists, `Except String` models raised
`ValueError`s, and the printed sort outcomes are modelled by an explicit
result type.
-/

set_option maxHeartbeats 1600000

namespace AISD3

/-! ### Generic list helper lemmas -/

theorem getD_set_self {α : Type} (l : List α) (v : Nat) (x d : α) (h : v < l.length) :
    (l.set v x).getD v d = x := by
  induction l generalizing v with
  | nil => simp at h
  | cons a t ih =>
    cases v with
    | zero => simp [List.set, List.getD]
    | succ w =>
      simp only [List.set, List.getD, List.getElem?_cons_succ]
      have := ih w (by simpa using h)
      simpa [List.getD] using this

theorem getD_set_ne {α : Type} (l : List α) (v w : Nat) (x d : α) (h : w ≠ v) :
    (l.set v x).getD w d = l.getD w d := by
  induction l generalizing v w with
  | nil => simp
  | cons a t ih =>
    cases v with
    | zero =>
      cases w with
      | zero => exact absurd rfl h
      | succ w2 => simp [List.set, List.getD]
    | succ v2 =>
      cases w with
      | zero => simp [List.set, List.getD]
      | succ w2 =>
        simp only [List.set, List.getD, List.getElem?_cons_succ]
        have := ih v2 w2 (fun hh => h (by rw [hh]))
        simpa [List.getD] using this

theorem getD_eq_get {α : Type} (l : List α) (v : Nat) (d : α) (h : v < l.length) :
    l.getD v d = l.get ⟨v, h⟩ := by
  simp [List.getD, List.getElem?_eq_getElem h]

theorem getD_default {α : Type} (l : List α) (v : Nat) (d : α) (h : l.length ≤ v) :
    l.getD v d = d := by
  simp [List.getD, List.getElem?_eq_none h]

/-- Effect of `List.set` on `countP`, stated without truncated subtraction. -/
theorem countP_set {α : Type} (P : α → Bool) (l : List α) (v : Nat) (x d : α)
    (h : v < l.length) :
    (l.set v x).countP P + (P (l.getD v d)).toNat
      = l.countP P + (P x).toNat := by
  induction l generalizing v with
  | nil => simp at h
  | cons a t ih =>
    cases v with
    | zero =>
      cases hx : P x <;> cases ha : P a <;>
        simp [List.set, List.countP_cons, List.getD_cons_zero, hx, ha]
    | succ w =>
      have hw : w < t.length := by simpa using h
      have h2 := ih w hw
      cases ha : P a <;>
        simp only [List.set, List.countP_cons, List.getD_cons_succ, ha] <;> omega

theorem countP_set_le {α : Type} (P : α → Bool) (l : List α) (v : Nat) (x d : α)
    (hx : P x = false) :
    (l.set v x).countP P ≤ l.countP P := by
  by_cases h : v < l.length
  · have h2 := countP_set P l v x d h
    rw [hx] at h2
    cases hv : P (l.getD v d) <;> rw [hv] at h2 <;> simp at h2 <;> omega
  · rw [List.set_eq_of_length_le (by omega)]

theorem countP_set_lt {α : Type} (P : α → Bool) (l : List α) (v : Nat) (x d : α)
    (hx : P x = false) (h : v < l.length) (hv : P (l.getD v d) = true) :
    (l.set v x).countP P < l.countP P := by
  have h2 := countP_set P l v x d h
  rw [hx, hv] at h2
  simp at h2
  omega

/-! ### The graph data model (`Graph.__init__`, src/main.py lines 7–22) -/

structure Graph where
  nodes : Nat
  directed : Bool
  adj_list : List (List Nat)
  adj_matrix : List (List Nat)
  edge_list : List (Nat × Nat)
deriving Repr, DecidableEq

/-- Read a matrix cell: `m[u][v]` with 0 outside the stored rectangle. -/
def matGet (m : List (List Nat)) (u v : Nat) : Nat :=
  (m.getD u []).getD v 0

/-- `m[u][v] = x`, a no-op outside the stored rectangle (never reached by code
built through `construct`/`add_edge`). -/
def matSet (m : List (List Nat)) (u v x : Nat) : List (List Nat) :=
  m.set u ((m.getD u []).set v x)

/-- `l[u].append(v)`, a no-op outside the list (never reached by code built
through `construct`/`add_edge`). -/
def adjAppend (l : List (List Nat)) (u v : Nat) : List (List Nat) :=
  l.set u ((l.getD u []) ++ [v])

/-- `Graph.__init__`: positive node count required; empty rows, zero matrix,
empty edge list. -/
def Graph.construct (nodes : Int) (directed : Bool) : Except String Graph :=
  if nodes ≤ 0 then .error "Number of nodes must be positive"
  else .ok { nodes := nodes.toNat
             directed := directed
             adj_list := List.replicate nodes.toNat []
             adj_matrix := List.replicate nodes.toNat (List.replicate nodes.toNat 0)
             edge_list := [] }

/-- The three-representation update performed by `add_edge` for one direction. -/
def Graph.insertArc (g : Graph) (u v : Nat) : Graph :=
  { g with adj_list := adjAppend g.adj_list u v
           adj_matrix := matSet g.adj_matrix u v 1
           edge_list := g.edge_list ++ [(u, v)] }

/-- `Graph.add_edge` (src/main.py lines 24–47): validates the indices, rejects
self-loops, silently ignores duplicates (matrix lookup), otherwise updates the
three representations, twice for an undirected graph. -/
def Graph.add_edge (g : Graph) (u v : Int) : Except String Graph :=
  if u < 0 ∨ (g.nodes : Int) ≤ u ∨ v < 0 ∨ (g.nodes : Int) ≤ v then
    .error "Node index out of range"
  else if u = v then .error "Self-loops are not allowed"
  else if matGet g.adj_matrix u.toNat v.toNat = 1 then .ok g
  else if ¬ g.directed ∧ u.toNat ≠ v.toNat then
    .ok ((g.insertArc u.toNat v.toNat).insertArc v.toNat u.toNat)
  else .ok (g.insertArc u.toNat v.toNat)

/-- `Graph.edge_exists` (src/main.py lines 64–77): out-of-range indices give
`false`; otherwise the adjacency matrix cell is consulted. -/
def Graph.edge_exists (g : Graph) (u v : Int) : Bool :=
  if u < 0 ∨ (g.nodes : Int) ≤ u ∨ v < 0 ∨ (g.nodes : Int) ≤ v then false
  else matGet g.adj_matrix u.toNat v.toNat == 1

/-- Run a sequence of `add_edge` calls; a raised `ValueError` leaves the caller
with the unchanged graph. -/
def Graph.addEdgeOps (g : Graph) (ops : List (Int × Int)) : Graph :=
  ops.foldl (fun acc uv =>
    match acc.add_edge uv.1 uv.2 with
    | .ok g2 => g2
    | .error _ => acc) g

/-- Graph states reachable from `construct` by any sequence of `add_edge`
calls (failed calls leave the state unchanged, so only successes step). -/
inductive Reachable : Graph → Prop where
  | base (n : Int) (d : Bool) (g : Graph) : Graph.construct n d = .ok g → Reachable g
  | step (g g2 : Graph) (u v : Int) : Reachable g → g.add_edge u v = .ok g2 → Reachable g2

/-- Convenience constructor used for the concrete test scenarios. -/
def buildGraph (n : Int) (d : Bool) (es : List (Int × Int)) : Graph :=
  match Graph.construct n d with
  | .error _ => { nodes := 0, directed := d, adj_list := [], adj_matrix := [], edge_list := [] }
  | .ok g0 => g0.addEdgeOps es

theorem reachable_addEdgeOps (g : Graph) (es : List (Int × Int)) (h : Reachable g) :
    Reachable (g.addEdgeOps es) := by
  induction es generalizing g with
  | nil => simpa [Graph.addEdgeOps] using h
  | cons e rest ih =>
    have hstep : Graph.addEdgeOps g (e :: rest)
        = Graph.addEdgeOps (match g.add_edge e.1 e.2 with
                            | .ok g2 => g2
                            | .error _ => g) rest := by
      simp [Graph.addEdgeOps]
    rw [hstep]
    apply ih
    cases he : g.add_edge e.1 e.2 with
    | ok g2 => exact Reachable.step g g2 e.1 e.2 h he
    | error msg => exact h

theorem buildGraph_reachable (n : Int) (d : Bool) (es : List (Int × Int))
    (h : 0 < n) : Reachable (buildGraph n d es) := by
  unfold buildGraph
  cases hc : Graph.construct n d with
  | error msg =>
    exfalso
    unfold Graph.construct at hc
    rw [if_neg (by omega)] at hc
    exact Except.noConfusion hc
  | ok g0 => exact reachable_addEdgeOps g0 es (Reachable.base n d g0 hc)

/-! ### Well-formedness of reachable graph states -/

/-- Invariants of graph states reachable through the public API, except
matrix symmetry (which is broken by the intermediate state inside an
undirected `add_edge` and restored by its second insertion). -/
structure WFCore (g : Graph) : Prop where
  adjLen : g.adj_list.length = g.nodes
  matLen : g.adj_matrix.length = g.nodes
  matRow : ∀ u, u < g.nodes → (g.adj_matrix.getD u []).length = g.nodes
  adjMem : ∀ u v, v ∈ g.adj_list.getD u [] → v < g.nodes
  adjNodup : ∀ u, (g.adj_list.getD u []).Nodup
  edgeMem : ∀ p, p ∈ g.edge_list → p.1 < g.nodes ∧ p.2 < g.nodes
  sync1 : ∀ u v, u < g.nodes → v < g.nodes →
    (matGet g.adj_matrix u v = 1 ↔ v ∈ g.adj_list.getD u [])
  sync2 : ∀ u v, u < g.nodes → v < g.nodes →
    (v ∈ g.adj_list.getD u [] ↔ (u, v) ∈ g.edge_list)

/-- Invariants of every graph state reachable through the public API. -/
structure WF (g : Graph) extends WFCore g : Prop where
  symm : g.directed = false → ∀ u v, u < g.nodes → v < g.nodes →
    matGet g.adj_matrix u v = matGet g.adj_matrix v u

theorem getD_replicate {α : Type} (n v : Nat) (a d : α) (h : v < n) :
    (List.replicate n a).getD v d = a := by
  rw [getD_eq_get _ _ _ (by simpa using h)]
  simp

theorem adjAppend_getD_self (l : List (List Nat)) (a b : Nat) (h : a < l.length) :
    (adjAppend l a b).getD a [] = l.getD a [] ++ [b] :=
  getD_set_self l a _ [] h

theorem adjAppend_getD_ne (l : List (List Nat)) (a b u : Nat) (h : u ≠ a) :
    (adjAppend l a b).getD u [] = l.getD u [] :=
  getD_set_ne l a u _ [] h

theorem matSet_length (m : List (List Nat)) (a b x : Nat) :
    (matSet m a b x).length = m.length :=
  List.length_set m a _

theorem adjAppend_length (l : List (List Nat)) (a b : Nat) :
    (adjAppend l a b).length = l.length :=
  List.length_set l a _

theorem matSet_getD_self (m : List (List Nat)) (a b x : Nat) (ha : a < m.length) :
    (matSet m a b x).getD a [] = (m.getD a []).set b x :=
  getD_set_self m a _ [] ha

theorem matSet_getD_ne (m : List (List Nat)) (a b x u : Nat) (h : u ≠ a) :
    (matSet m a b x).getD u [] = m.getD u [] :=
  getD_set_ne m a u _ [] h

theorem matGet_matSet_self (m : List (List Nat)) (a b x : Nat)
    (ha : a < m.length) (hb : b < (m.getD a []).length) :
    matGet (matSet m a b x) a b = x := by
  unfold matGet
  rw [matSet_getD_self m a b x ha]
  exact getD_set_self _ b x 0 hb

theorem matGet_matSet_ne (m : List (List Nat)) (a b x u v : Nat)
    (h : u ≠ a ∨ v ≠ b) :
    matGet (matSet m a b x) u v = matGet m u v := by
  unfold matGet
  rcases h with h | h
  · rw [matSet_getD_ne m a b x u h]
  · by_cases ha : a < m.length
    · by_cases hu : u = a
      · subst hu
        rw [matSet_getD_self m u b x ha]
        exact getD_set_ne _ b v x 0 h
      · rw [matSet_getD_ne m a b x u hu]
    · unfold matSet
      rw [List.set_eq_of_length_le (by omega)]


theorem WFCore_construct (n : Int) (d : Bool) (g : Graph)
    (h : Graph.construct n d = .ok g) : WF g := by
  unfold Graph.construct at h
  by_cases hn : n ≤ 0
  · rw [if_pos hn] at h; exact Except.noConfusion h
  · rw [if_neg hn] at h
    injection h with h
    subst h
    refine ⟨⟨by simp, by simp, ?_, ?_, ?_, ?_, ?_, ?_⟩, ?_⟩
    · intro u hu
      rw [getD_replicate _ u _ [] hu]
      simp
    · intro u v hv
      by_cases hu : u < n.toNat
      · rw [getD_replicate _ u _ [] hu] at hv; simp at hv
      · rw [getD_default _ u [] (by simp; omega)] at hv; simp at hv
    · intro u
      by_cases hu : u < n.toNat
      · rw [getD_replicate _ u _ [] hu]; simp
      · rw [getD_default _ u [] (by simp; omega)]; simp
    · intro p hp; simp at hp
    · intro u v hu hv
      rw [getD_replicate _ u _ [] hu]
      unfold matGet
      rw [getD_replicate _ u _ [] hu, getD_replicate _ v _ 0 hv]
      simp
    · intro u v hu hv
      rw [getD_replicate _ u _ [] hu]
      simp
    · intro _ u v hu hv
      unfold matGet
      rw [getD_replicate _ u _ [] hu, getD_replicate _ v _ 0 hv,
          getD_replicate _ v _ [] hv, getD_replicate _ u _ 0 hu]

/-- A single fresh arc insertion preserves the core invariants, leaves every
other matrix cell alone, and sets the inserted cell to 1. -/
theorem WFCore_insertArc (g : Graph) (hw : WFCore g) (a b : Nat)
    (ha : a < g.nodes) (hb : b < g.nodes)
    (hfresh : matGet g.adj_matrix a b ≠ 1) :
    WFCore (g.insertArc a b) ∧
    (∀ u v, (u ≠ a ∨ v ≠ b) →
      matGet (g.insertArc a b).adj_matrix u v = matGet g.adj_matrix u v) ∧
    matGet (g.insertArc a b).adj_matrix a b = 1 := by
  have haL : a < g.adj_list.length := by rw [hw.adjLen]; exact ha
  have haM : a < g.adj_matrix.length := by rw [hw.matLen]; exact ha
  have hbM : b < (g.adj_matrix.getD a []).length := by rw [hw.matRow a ha]; exact hb
  have hbmem : b ∉ g.adj_list.getD a [] := by
    intro hmem
    exact hfresh ((hw.sync1 a b ha hb).2 hmem)
  have hNodes : (g.insertArc a b).nodes = g.nodes := rfl
  refine ⟨⟨?_, ?_, ?_, ?_, ?_, ?_, ?_, ?_⟩, ?_, ?_⟩
  · show (adjAppend g.adj_list a b).length = g.nodes
    rw [adjAppend_length, hw.adjLen]
  · show (matSet g.adj_matrix a b 1).length = g.nodes
    rw [matSet_length, hw.matLen]
  · intro u hu
    show ((matSet g.adj_matrix a b 1).getD u []).length = g.nodes
    by_cases hua : u = a
    · subst hua
      rw [matSet_getD_self _ _ _ _ haM, List.length_set]
      exact hw.matRow u hu
    · rw [matSet_getD_ne _ _ _ _ _ hua]
      exact hw.matRow u hu
  · intro u v hv
    show v < g.nodes
    by_cases hua : u = a
    · subst hua
      rw [show (g.insertArc u b).adj_list = adjAppend g.adj_list u b from rfl,
          adjAppend_getD_self g.adj_list u b haL] at hv
      rcases List.mem_append.1 hv with hv | hv
      · exact hw.adjMem u v hv
      · simp at hv; omega
    · rw [show (g.insertArc a b).adj_list = adjAppend g.adj_list a b from rfl,
          adjAppend_getD_ne g.adj_list a b u hua] at hv
      exact hw.adjMem u v hv
  · intro u
    by_cases hua : u = a
    · subst hua
      rw [show (g.insertArc u b).adj_list = adjAppend g.adj_list u b from rfl,
          adjAppend_getD_self g.adj_list u b haL]
      exact List.Nodup.append (hw.adjNodup u) (List.nodup_singleton b)
        (by simpa using hbmem)
    · rw [show (g.insertArc a b).adj_list = adjAppend g.adj_list a b from rfl,
          adjAppend_getD_ne g.adj_list a b u hua]
      exact hw.adjNodup u
  · intro p hp
    rcases List.mem_append.1 hp with hp | hp
    · exact hw.edgeMem p hp
    · simp at hp
      rw [hp]
      exact ⟨ha, hb⟩
  · intro u v hu hv
    show matGet (matSet g.adj_matrix a b 1) u v = 1 ↔
      v ∈ (adjAppend g.adj_list a b).getD u []
    by_cases hua : u = a
    · subst hua
      rw [adjAppend_getD_self g.adj_list u b haL]
      by_cases hvb : v = b
      · subst hvb
        rw [matGet_matSet_self _ _ _ _ haM hbM]
        simp
      · rw [matGet_matSet_ne _ _ _ _ _ _ (Or.inr hvb)]
        rw [List.mem_append]
        simp only [List.mem_singleton]
        constructor
        · intro h1; exact Or.inl ((hw.sync1 u v hu hv).1 h1)
        · intro h1
          rcases h1 with h1 | h1
          · exact (hw.sync1 u v hu hv).2 h1
          · exact absurd h1 hvb
    · rw [adjAppend_getD_ne g.adj_list a b u hua,
          matGet_matSet_ne _ _ _ _ _ _ (Or.inl hua)]
      exact hw.sync1 u v hu hv
  · intro u v hu hv
    show v ∈ (adjAppend g.adj_list a b).getD u [] ↔
      (u, v) ∈ g.edge_list ++ [(a, b)]
    rw [List.mem_append]
    by_cases hua : u = a
    · subst hua
      rw [adjAppend_getD_self g.adj_list u b haL, List.mem_append]
      by_cases hvb : v = b
      · subst hvb; simp
      · simp only [List.mem_singleton]
        constructor
        · intro h1
          rcases h1 with h1 | h1
          · exact Or.inl ((hw.sync2 u v hu hv).1 h1)
          · exact absurd h1 hvb
        · intro h1
          rcases h1 with h1 | h1
          · exact Or.inl ((hw.sync2 u v hu hv).2 h1)
          · simp at h1
            exact absurd h1 hvb
    · rw [adjAppend_getD_ne g.adj_list a b u hua]
      constructor
      · intro h1; exact Or.inl ((hw.sync2 u v hu hv).1 h1)
      · intro h1
        rcases h1 with h1 | h1
        · exact (hw.sync2 u v hu hv).2 h1
        · simp at h1
          exact absurd h1.1 hua
  · intro u v h
    exact matGet_matSet_ne _ _ _ _ _ _ h
  · exact matGet_matSet_self _ _ _ _ haM hbM

theorem WF_add_edge (g g2 : Graph) (u v : Int) (hw : WF g)
    (h : g.add_edge u v = .ok g2) : WF g2 := by
  unfold Graph.add_edge at h
  by_cases hr : u < 0 ∨ (g.nodes : Int) ≤ u ∨ v < 0 ∨ (g.nodes : Int) ≤ v
  · rw [if_pos hr] at h; exact Except.noConfusion h
  · rw [if_neg hr] at h
    push_neg at hr
    obtain ⟨hu0, hun, hv0, hvn⟩ := hr
    by_cases huv : u = v
    · rw [if_pos huv] at h; exact Except.noConfusion h
    · rw [if_neg huv] at h
      have hun2 : u.toNat < g.nodes := by omega
      have hvn2 : v.toNat < g.nodes := by omega
      have hne : u.toNat ≠ v.toNat := by omega
      by_cases hdup : matGet g.adj_matrix u.toNat v.toNat = 1
      · rw [if_pos hdup] at h
        injection h with h
        subst h
        exact hw
      · rw [if_neg hdup] at h
        by_cases hund : ¬ g.directed ∧ u.toNat ≠ v.toNat
        · rw [if_pos hund] at h
          injection h with h
          subst h
          have hdirF : g.directed = false := by
            rcases hund with ⟨hd, _⟩
            simpa using hd
          obtain ⟨hc1, hold1, hnew1⟩ :=
            WFCore_insertArc g hw.toWFCore u.toNat v.toNat hun2 hvn2 hdup
          have hfresh2 :
              matGet (g.insertArc u.toNat v.toNat).adj_matrix v.toNat u.toNat ≠ 1 := by
            rw [hold1 v.toNat u.toNat (Or.inl hne.symm)]
            rw [hw.symm hdirF v.toNat u.toNat hvn2 hun2]
            exact hdup
          obtain ⟨hc2, hold2, hnew2⟩ :=
            WFCore_insertArc (g.insertArc u.toNat v.toNat) hc1 v.toNat u.toNat
              hvn2 hun2 hfresh2
          refine ⟨hc2, ?_⟩
          intro _ x y hx hy
          by_cases hxy1 : x = v.toNat ∧ y = u.toNat
          · rw [hxy1.1, hxy1.2, hnew2,
                hold2 u.toNat v.toNat (Or.inl hne), hnew1]
          · by_cases hxy2 : x = u.toNat ∧ y = v.toNat
            · rw [hxy2.1, hxy2.2, hnew2,
                  hold2 u.toNat v.toNat (Or.inl hne), hnew1]
            · have hxo : x ≠ v.toNat ∨ y ≠ u.toNat := by tauto
              have hyo : y ≠ v.toNat ∨ x ≠ u.toNat := by tauto
              have hxo2 : x ≠ u.toNat ∨ y ≠ v.toNat := by tauto
              have hyo2 : y ≠ u.toNat ∨ x ≠ v.toNat := by tauto
              rw [hold2 x y hxo, hold2 y x hyo, hold1 x y hxo2, hold1 y x hyo2]
              exact hw.symm hdirF x y hx hy
        · rw [if_neg hund] at h
          injection h with h
          subst h
          have hdirT : g.directed = true := by
            by_cases hd : g.directed
            · exact hd
            · exact absurd ⟨hd, hne⟩ hund
          obtain ⟨hc1, hold1, hnew1⟩ :=
            WFCore_insertArc g hw.toWFCore u.toNat v.toNat hun2 hvn2 hdup
          refine ⟨hc1, ?_⟩
          intro hd
          rw [show (g.insertArc u.toNat v.toNat).directed = g.directed from rfl,
              hdirT] at hd
          exact absurd hd (by simp)

theorem WF_reachable (g : Graph) (h : Reachable g) : WF g := by
  induction h with
  | base n d g hc => exact WFCore_construct n d g hc
  | step g g2 u v _ hstep ih => exact WF_add_edge g g2 u v ih hstep


/-! ### Concrete scenario graphs from the specification -/

def gPair : Graph := buildGraph 2 true [(0, 1)]

def gDag4 : Graph := buildGraph 4 true [(0, 1), (0, 2), (1, 3), (2, 3)]

def gCyc3 : Graph := buildGraph 3 true [(0, 1), (1, 2), (2, 0)]

def gUndir : Graph := buildGraph 3 false [(0, 1), (1, 2)]

/-! ### C3: three-way synchronization invariant -/

/-- C3: in every graph state reachable from `construct` by `add_edge` calls,
for all in-range `u`, `v`: the adjacency-matrix cell `[u][v]` is 1 iff `v`
appears in the adjacency list of `u` iff the pair `(u,v)` appears in the edge
list. -/
theorem addEdge_three_way_sync (g : Graph) (h : Reachable g) :
    ∀ u v : Nat, u < g.nodes → v < g.nodes →
      ((matGet g.adj_matrix u v = 1 ↔ v ∈ g.adj_list.getD u []) ∧
       (v ∈ g.adj_list.getD u [] ↔ (u, v) ∈ g.edge_list)) := by
  intro u v hu hv
  exact ⟨(WF_reachable g h).sync1 u v hu hv, (WF_reachable g h).sync2 u v hu hv⟩

theorem addEdge_three_way_sync_witness :
    (matGet gPair.adj_matrix 0 1 = 1 ↔ 1 ∈ gPair.adj_list.getD 0 []) ∧
    (1 ∈ gPair.adj_list.getD 0 [] ↔ (0, 1) ∈ gPair.edge_list) :=
  addEdge_three_way_sync gPair (buildGraph_reachable 2 true _ (by decide))
    0 1 (by decide) (by decide)

/-! ### C4: successful insertion and idempotence -/

/-- C4: for in-range `u ≠ v`, `add_edge` succeeds; afterwards `edge_exists`
reports the edge, and a second identical call returns the graph unchanged
(all three representations, hence also the edge-list length). -/
theorem addEdge_idempotent (g : Graph) (u v : Int) (h : Reachable g)
    (hu0 : 0 ≤ u) (hun : u < (g.nodes : Int)) (hv0 : 0 ≤ v)
    (hvn : v < (g.nodes : Int)) (huv : u ≠ v) :
    ∃ g2, g.add_edge u v = .ok g2 ∧ g2.edge_exists u v = true ∧
      g2.add_edge u v = .ok g2 := by
  have hw := WF_reachable g h
  have hr : ¬ (u < 0 ∨ (g.nodes : Int) ≤ u ∨ v < 0 ∨ (g.nodes : Int) ≤ v) := by omega
  have hun2 : u.toNat < g.nodes := by omega
  have hvn2 : v.toNat < g.nodes := by omega
  have hne : u.toNat ≠ v.toNat := by omega
  -- whichever way the first call goes, the final state has matrix cell 1 and
  -- the same node count
  have key : ∀ g2 : Graph, g.add_edge u v = .ok g2 →
      matGet g2.adj_matrix u.toNat v.toNat = 1 ∧ g2.nodes = g.nodes := by
    intro g2 h2
    unfold Graph.add_edge at h2
    rw [if_neg hr, if_neg huv] at h2
    by_cases hdup : matGet g.adj_matrix u.toNat v.toNat = 1
    · rw [if_pos hdup] at h2
      injection h2 with h2
      subst h2
      exact ⟨hdup, rfl⟩
    · rw [if_neg hdup] at h2
      obtain ⟨hc1, hold1, hnew1⟩ :=
        WFCore_insertArc g hw.toWFCore u.toNat v.toNat hun2 hvn2 hdup
      by_cases hund : ¬ g.directed ∧ u.toNat ≠ v.toNat
      · rw [if_pos hund] at h2
        injection h2 with h2
        subst h2
        have hfresh2 :
            matGet (g.insertArc u.toNat v.toNat).adj_matrix v.toNat u.toNat ≠ 1 := by
          rw [hold1 v.toNat u.toNat (Or.inl hne.symm)]
          rw [hw.symm (by simpa using hund.1) v.toNat u.toNat hvn2 hun2]
          exact hdup
        obtain ⟨hc2, hold2, hnew2⟩ :=
          WFCore_insertArc (g.insertArc u.toNat v.toNat) hc1 v.toNat u.toNat
            hvn2 hun2 hfresh2
        refine ⟨?_, rfl⟩
        rw [hold2 u.toNat v.toNat (Or.inl hne), hnew1]
      · rw [if_neg hund] at h2
        injection h2 with h2
        subst h2
        exact ⟨hnew1, rfl⟩
  have hok : ∃ g2, g.add_edge u v = .ok g2 := by
    unfold Graph.add_edge
    rw [if_neg hr, if_neg huv]
    by_cases hdup : matGet g.adj_matrix u.toNat v.toNat = 1
    · rw [if_pos hdup]; exact ⟨g, rfl⟩
    · rw [if_neg hdup]
      by_cases hund : ¬ g.directed ∧ u.toNat ≠ v.toNat
      · rw [if_pos hund]; exact ⟨_, rfl⟩
      · rw [if_neg hund]; exact ⟨_, rfl⟩
  obtain ⟨g2, hg2⟩ := hok
  obtain ⟨hcell, hnodes⟩ := key g2 hg2
  have hr2 : ¬ (u < 0 ∨ (g2.nodes : Int) ≤ u ∨ v < 0 ∨ (g2.nodes : Int) ≤ v) := by
    rw [hnodes]; omega
  refine ⟨g2, hg2, ?_, ?_⟩
  · unfold Graph.edge_exists
    rw [if_neg hr2]
    simpa using hcell
  · unfold Graph.add_edge
    rw [if_neg hr2, if_neg huv, if_pos hcell]

theorem addEdge_idempotent_witness :
    ∃ g2, gPair.add_edge 0 1 = .ok g2 ∧ g2.edge_exists 0 1 = true ∧
      g2.add_edge 0 1 = .ok g2 :=
  addEdge_idempotent gPair 0 1 (buildGraph_reachable 2 true _ (by decide))
    (by decide) (by decide) (by decide) (by decide) (by decide)

/-! ### C5: rejected insertions change nothing -/

/-- C5: `add_edge` fails with a `ValueError` whenever `u` or `v` is out of
range or `u = v`, and a failed call leaves the graph (all three
representations) unchanged. -/
theorem addEdge_invalid (g : Graph) (u v : Int)
    (h : u < 0 ∨ (g.nodes : Int) ≤ u ∨ v < 0 ∨ (g.nodes : Int) ≤ v ∨ u = v) :
    (∃ e, g.add_edge u v = .error e) ∧ g.addEdgeOps [(u, v)] = g := by
  have herr : ∃ e, g.add_edge u v = .error e := by
    unfold Graph.add_edge
    by_cases hr : u < 0 ∨ (g.nodes : Int) ≤ u ∨ v < 0 ∨ (g.nodes : Int) ≤ v
    · rw [if_pos hr]; exact ⟨_, rfl⟩
    · have huv : u = v := by tauto
      rw [if_neg hr, if_pos huv]
      exact ⟨_, rfl⟩
  obtain ⟨e, he⟩ := herr
  refine ⟨⟨e, he⟩, ?_⟩
  simp [Graph.addEdgeOps, he]

theorem addEdge_invalid_witness :
    (∃ e, gPair.add_edge 1 1 = .error e) ∧ gPair.addEdgeOps [(1, 1)] = gPair :=
  addEdge_invalid gPair 1 1 (by decide)

/-! ### C6: lenient edge_exists -/

/-- C6: `edge_exists` never fails: it returns `false` for any out-of-range
index, and for in-range indices it reports exactly whether the
adjacency-matrix cell is 1 — in contrast to `add_edge`, which raises on the
same inputs. -/
theorem edgeExists_lenient (g : Graph) (u v : Int) :
    ((u < 0 ∨ (g.nodes : Int) ≤ u ∨ v < 0 ∨ (g.nodes : Int) ≤ v) →
      g.edge_exists u v = false) ∧
    (0 ≤ u → u < (g.nodes : Int) → 0 ≤ v → v < (g.nodes : Int) →
      (g.edge_exists u v = true ↔ matGet g.adj_matrix u.toNat v.toNat = 1)) := by
  constructor
  · intro hr
    unfold Graph.edge_exists
    rw [if_pos hr]
  · intro h1 h2 h3 h4
    unfold Graph.edge_exists
    rw [if_neg (by omega)]
    simp

theorem edgeExists_lenient_witness :
    gPair.edge_exists 5 0 = false ∧
    (gPair.edge_exists 0 1 = true ↔ matGet gPair.adj_matrix 0 1 = 1) :=
  ⟨(edgeExists_lenient gPair 5 0).1 (by decide),
   (edgeExists_lenient gPair 0 1).2 (by decide) (by decide) (by decide) (by decide)⟩


/-! ### BFS (`Graph.bfs`, src/main.py lines 79–104) -/

/-- Number of unvisited marks, the BFS/DFS termination measure. -/
def cFalse (l : List Bool) : Nat := l.countP (fun b => !b)

theorem getD_true_false_lt (visited : List Bool) (v : Nat)
    (h : visited.getD v true = false) : v < visited.length := by
  by_contra hc
  rw [getD_default _ _ _ (by omega)] at h
  exact Bool.noConfusion h

theorem cFalse_set_lt (visited : List Bool) (v : Nat)
    (h : visited.getD v true = false) :
    cFalse (visited.set v true) < cFalse visited := by
  apply countP_set_lt (fun b => !b) visited v true true rfl
    (getD_true_false_lt visited v h)
  show (!(visited.getD v true)) = true
  rw [h]
  rfl

/-- Inner loop of one BFS dequeue step: mark-and-enqueue every not-yet-visited
neighbor, in adjacency-list order.  A neighbor index outside the visited
array (impossible for API-built graphs) is treated as visited. -/
def bfsStep (visited : List Bool) (queue : List Nat) (ns : List Nat) :
    List Bool × List Nat :=
  match ns with
  | [] => (visited, queue)
  | v :: rest =>
    if visited.getD v true then bfsStep visited queue rest
    else bfsStep (visited.set v true) (queue ++ [v]) rest

theorem bfsStep_nil (visited : List Bool) (queue : List Nat) :
    bfsStep visited queue [] = (visited, queue) := rfl

theorem bfsStep_cons (visited : List Bool) (queue : List Nat) (v : Nat)
    (rest : List Nat) :
    bfsStep visited queue (v :: rest)
      = if visited.getD v true then bfsStep visited queue rest
        else bfsStep (visited.set v true) (queue ++ [v]) rest := rfl

theorem bfsStep_measure (visited : List Bool) (queue : List Nat) (ns : List Nat) :
    2 * cFalse (bfsStep visited queue ns).1 + (bfsStep visited queue ns).2.length
      ≤ 2 * cFalse visited + queue.length := by
  induction ns generalizing visited queue with
  | nil => rw [bfsStep_nil]
  | cons v rest ih =>
    by_cases hv : visited.getD v true
    · rw [bfsStep_cons, if_pos hv]
      exact ih visited queue
    · have hv2 : visited.getD v true = false := by simpa using hv
      rw [bfsStep_cons, if_neg hv]
      have h1 := ih (visited.set v true) (queue ++ [v])
      have h2 := cFalse_set_lt visited v hv2
      simp only [List.length_append, List.length_cons, List.length_nil] at h1 ⊢
      omega

theorem bfsStep_length (visited : List Bool) (queue : List Nat) (ns : List Nat) :
    (bfsStep visited queue ns).1.length = visited.length := by
  induction ns generalizing visited queue with
  | nil => rw [bfsStep_nil]
  | cons v rest ih =>
    by_cases hv : visited.getD v true
    · rw [bfsStep_cons, if_pos hv]
      exact ih visited queue
    · rw [bfsStep_cons, if_neg hv]
      rw [ih (visited.set v true) (queue ++ [v]), List.length_set]

theorem bfsLoop_dec (adj : List (List Nat)) (visited : List Bool) (u : Nat)
    (rest : List Nat) :
    2 * cFalse (bfsStep visited rest (adj.getD u [])).1
      + (bfsStep visited rest (adj.getD u [])).2.length
      < 2 * cFalse visited + (u :: rest).length := by
  have := bfsStep_measure visited rest (adj.getD u [])
  simp only [List.length_cons]
  omega

/-- The BFS `while queue:` loop. -/
def bfsLoop (adj : List (List Nat)) (visited : List Bool) (queue : List Nat)
    (order : List Nat) : List Nat :=
  match queue with
  | [] => order
  | u :: rest =>
    bfsLoop adj (bfsStep visited rest (adj.getD u [])).1
      (bfsStep visited rest (adj.getD u [])).2 (order ++ [u])
termination_by 2 * cFalse visited + queue.length
decreasing_by
  apply bfsLoop_dec

theorem bfsLoop_nil (adj : List (List Nat)) (visited : List Bool)
    (order : List Nat) : bfsLoop adj visited [] order = order := by
  unfold bfsLoop
  rfl

theorem bfsLoop_cons (adj : List (List Nat)) (visited : List Bool)
    (u : Nat) (rest order : List Nat) :
    bfsLoop adj visited (u :: rest) order
      = bfsLoop adj (bfsStep visited rest (adj.getD u [])).1
          (bfsStep visited rest (adj.getD u [])).2 (order ++ [u]) := by
  conv_lhs => unfold bfsLoop

/-- `Graph.bfs`: validates the start node, seeds the queue with it (already
marked visited) and runs the loop. -/
def Graph.bfs (g : Graph) (start : Int) : Except String (List Nat) :=
  if start < 0 ∨ (g.nodes : Int) ≤ start then .error "Invalid start node"
  else .ok (bfsLoop g.adj_list ((List.replicate g.nodes false).set start.toNat true)
    [start.toNat] [])

/-! ### DFS (`Graph.dfs_util`/`Graph.dfs`, src/main.py lines 106–130) -/

/-- The recursive neighbor sweep of `dfs_util`: for each pending neighbor in
order, if unvisited, mark it, emit it and descend into its adjacency row.
The subtype carries the monotonicity facts the nested recursion needs. -/
def dfsGo (adj : List (List Nat)) (ns : List Nat) (visited : List Bool)
    (order : List Nat) :
    { p : List Bool × List Nat //
      cFalse p.1 ≤ cFalse visited ∧ p.1.length = visited.length } :=
  match ns with
  | [] => ⟨(visited, order), le_refl _, rfl⟩
  | v :: rest =>
    if h : visited.getD v true then dfsGo adj rest visited order
    else
      have hlt : cFalse (visited.set v true) < cFalse visited :=
        cFalse_set_lt visited v (by simpa using h)
      let p1 := dfsGo adj (adj.getD v []) (visited.set v true) (order ++ [v])
      let p2 := dfsGo adj rest p1.val.1 p1.val.2
      ⟨p2.val,
        le_trans p2.property.1 (le_trans p1.property.1 (Nat.le_of_lt hlt)),
        by rw [p2.property.2, p1.property.2, List.length_set]⟩
termination_by (cFalse visited, ns.length)
decreasing_by
  · apply Prod.Lex.right
    simp
  · apply Prod.Lex.left
    exact hlt
  · apply Prod.Lex.left
    exact Nat.lt_of_le_of_lt p1.property.1 hlt

/-- Proof-free view of `dfsGo`: final visited array and output order. -/
def dfsRun (adj : List (List Nat)) (ns : List Nat) (visited : List Bool)
    (order : List Nat) : List Bool × List Nat :=
  (dfsGo adj ns visited order).val

theorem dfsRun_nil (adj : List (List Nat)) (visited : List Bool)
    (order : List Nat) : dfsRun adj [] visited order = (visited, order) := by
  unfold dfsRun
  conv_lhs => unfold dfsGo

theorem dfsRun_cons_visited (adj : List (List Nat)) (v : Nat) (rest : List Nat)
    (visited : List Bool) (order : List Nat) (h : visited.getD v true = true) :
    dfsRun adj (v :: rest) visited order = dfsRun adj rest visited order := by
  unfold dfsRun
  conv_lhs => unfold dfsGo
  rw [dif_pos h]

theorem dfsRun_cons_new (adj : List (List Nat)) (v : Nat) (rest : List Nat)
    (visited : List Bool) (order : List Nat) (h : visited.getD v true = false) :
    dfsRun adj (v :: rest) visited order
      = dfsRun adj rest
          (dfsRun adj (adj.getD v []) (visited.set v true) (order ++ [v])).1
          (dfsRun adj (adj.getD v []) (visited.set v true) (order ++ [v])).2 := by
  unfold dfsRun
  conv_lhs => unfold dfsGo
  rw [dif_neg (by rw [h]; simp)]

/-- `Graph.dfs_util`: mark `u`, emit it, then sweep its neighbors. -/
def Graph.dfs_util (g : Graph) (u : Nat) (visited : List Bool)
    (order : List Nat) : List Bool × List Nat :=
  dfsRun g.adj_list (g.adj_list.getD u []) (visited.set u true) (order ++ [u])

/-- `Graph.dfs`: validates the start node and runs `dfs_util` on a fresh
visited array. -/
def Graph.dfs (g : Graph) (start : Int) : Except String (List Nat) :=
  if start < 0 ∨ (g.nodes : Int) ≤ start then .error "Invalid start node"
  else .ok (g.dfs_util start.toNat (List.replicate g.nodes false) []).2


/-! ### Outcomes of the topological sorts

The Python methods print their outcome; the three possible messages are
modelled as an explicit result type: a topological order, the cycle report,
or the "only works for directed graphs" report. -/

inductive TopoResult where
  | order (l : List Nat)
  | cycleDetected
  | notApplicable
deriving Repr, DecidableEq

/-! ### Kahn topological sort (`Graph.kahn_topological_sort`, lines 169–197) -/

/-- `in_degree[v] += 1`. -/
def incAt (l : List Int) (v : Nat) : List Int := l.set v (l.getD v 0 + 1)

/-- The in-degree scan: `for u in range(nodes): for v in adj[u]: in_degree[v] += 1`. -/
def kahnInDegrees (nodes : Nat) (adj : List (List Nat)) : List Int :=
  (List.range nodes).foldl
    (fun acc u => (adj.getD u []).foldl (fun acc2 v => incAt acc2 v) acc)
    (List.replicate nodes 0)

/-- Number of entries that can still generate an enqueue, part of the Kahn
loop termination measure. -/
def cPos (l : List Int) : Nat := l.countP (fun d => decide (1 ≤ d))

/-- Neighbor sweep of one Kahn dequeue step: decrement each neighbor and
enqueue it when its in-degree reaches exactly 0.  An out-of-range neighbor
(impossible for API-built graphs) is skipped. -/
def kahnRelax (indeg : List Int) (queue : List Nat) (ns : List Nat) :
    List Int × List Nat :=
  match ns with
  | [] => (indeg, queue)
  | v :: rest =>
    if (indeg.set v (indeg.getD v 0 - 1)).getD v 1 = 0 then
      kahnRelax (indeg.set v (indeg.getD v 0 - 1)) (queue ++ [v]) rest
    else kahnRelax (indeg.set v (indeg.getD v 0 - 1)) queue rest

theorem kahnRelax_nil (indeg : List Int) (queue : List Nat) :
    kahnRelax indeg queue [] = (indeg, queue) := rfl

theorem kahnRelax_cons (indeg : List Int) (queue : List Nat) (v : Nat)
    (rest : List Nat) :
    kahnRelax indeg queue (v :: rest)
      = if (indeg.set v (indeg.getD v 0 - 1)).getD v 1 = 0 then
          kahnRelax (indeg.set v (indeg.getD v 0 - 1)) (queue ++ [v]) rest
        else kahnRelax (indeg.set v (indeg.getD v 0 - 1)) queue rest := rfl

theorem kahnRelax_measure (indeg : List Int) (queue : List Nat) (ns : List Nat) :
    cPos (kahnRelax indeg queue ns).1 + (kahnRelax indeg queue ns).2.length
      = cPos indeg + queue.length := by
  induction ns generalizing indeg queue with
  | nil => rw [kahnRelax_nil]
  | cons v rest ih =>
    rw [kahnRelax_cons]
    by_cases hvr : v < indeg.length
    · have hset : (indeg.set v (indeg.getD v 0 - 1)).countP (fun d => decide (1 ≤ d))
          + (decide (1 ≤ indeg.getD v 0)).toNat
          = indeg.countP (fun d => decide (1 ≤ d))
            + (decide (1 ≤ indeg.getD v 0 - 1)).toNat :=
        countP_set _ indeg v _ 0 hvr
      have hval : (indeg.set v (indeg.getD v 0 - 1)).getD v 1
          = indeg.getD v 0 - 1 := getD_set_self indeg v _ 1 hvr
      by_cases h0 : (indeg.set v (indeg.getD v 0 - 1)).getD v 1 = 0
      · rw [if_pos h0, ih]
        rw [hval] at h0
        rw [decide_eq_true (by omega : (1 : Int) ≤ indeg.getD v 0),
            decide_eq_false (by omega : ¬ (1 : Int) ≤ indeg.getD v 0 - 1)] at hset
        simp only [cPos, Bool.toNat_true, Bool.toNat_false, Nat.add_zero] at hset ⊢
        simp only [List.length_append, List.length_cons, List.length_nil]
        omega
      · rw [if_neg h0, ih]
        rw [hval] at h0
        simp only [cPos] at hset ⊢
        by_cases hge : (1 : Int) ≤ indeg.getD v 0 - 1
        · rw [decide_eq_true hge,
              decide_eq_true (by omega : (1 : Int) ≤ indeg.getD v 0)] at hset
          simp only [Bool.toNat_true] at hset
          omega
        · rw [decide_eq_false hge,
              decide_eq_false (by omega : ¬ (1 : Int) ≤ indeg.getD v 0)] at hset
          simp only [Bool.toNat_false] at hset
          omega
    · have hnoop : indeg.set v (indeg.getD v 0 - 1) = indeg :=
        List.set_eq_of_length_le (by omega)
      have hd : (indeg.set v (indeg.getD v 0 - 1)).getD v 1 = 1 := by
        rw [hnoop]
        exact getD_default indeg v 1 (by omega)
      rw [if_neg (by rw [hd]; omega), hnoop, ih]

theorem kahnRelax_length (indeg : List Int) (queue : List Nat) (ns : List Nat) :
    (kahnRelax indeg queue ns).1.length = indeg.length := by
  induction ns generalizing indeg queue with
  | nil => rw [kahnRelax_nil]
  | cons v rest ih =>
    rw [kahnRelax_cons]
    by_cases h0 : (indeg.set v (indeg.getD v 0 - 1)).getD v 1 = 0
    · rw [if_pos h0, ih, List.length_set]
    · rw [if_neg h0, ih, List.length_set]

theorem kahnLoop_dec (adj : List (List Nat)) (indeg : List Int) (u : Nat)
    (rest : List Nat) :
    cPos (kahnRelax indeg rest (adj.getD u [])).1
      + (kahnRelax indeg rest (adj.getD u [])).2.length
      < cPos indeg + (u :: rest).length := by
  have := kahnRelax_measure indeg rest (adj.getD u [])
  simp only [List.length_cons]
  omega

/-- The Kahn `while queue:` loop. -/
def kahnLoop (adj : List (List Nat)) (indeg : List Int) (queue : List Nat)
    (topo : List Nat) : List Nat :=
  match queue with
  | [] => topo
  | u :: rest =>
    kahnLoop adj (kahnRelax indeg rest (adj.getD u [])).1
      (kahnRelax indeg rest (adj.getD u [])).2 (topo ++ [u])
termination_by cPos indeg + queue.length
decreasing_by
  apply kahnLoop_dec

theorem kahnLoop_nil (adj : List (List Nat)) (indeg : List Int)
    (topo : List Nat) : kahnLoop adj indeg [] topo = topo := by
  unfold kahnLoop
  rfl

theorem kahnLoop_cons (adj : List (List Nat)) (indeg : List Int) (u : Nat)
    (rest topo : List Nat) :
    kahnLoop adj indeg (u :: rest) topo
      = kahnLoop adj (kahnRelax indeg rest (adj.getD u [])).1
          (kahnRelax indeg rest (adj.getD u [])).2 (topo ++ [u]) := by
  conv_lhs => unfold kahnLoop

/-- `Graph.kahn_topological_sort`: refuse undirected graphs, compute
in-degrees, seed the queue with the in-degree-0 nodes in increasing index
order, run the loop, report a cycle iff the output is not complete. -/
def Graph.kahn_topological_sort (g : Graph) : TopoResult :=
  if ¬ g.directed then .notApplicable
  else
    if (kahnLoop g.adj_list (kahnInDegrees g.nodes g.adj_list)
          ((List.range g.nodes).filter
            (fun u => (kahnInDegrees g.nodes g.adj_list).getD u 0 == 0)) []).length
        ≠ g.nodes then .cycleDetected
    else .order (kahnLoop g.adj_list (kahnInDegrees g.nodes g.adj_list)
      ((List.range g.nodes).filter
        (fun u => (kahnInDegrees g.nodes g.adj_list).getD u 0 == 0)) [])

/-! ### DFS-based topological sort (`Graph.tarjan_topological_sort`,
src/main.py lines 199–229) -/

/-- Number of unvisited (color-0) marks, the DFS-sort termination measure. -/
def cZero (l : List Nat) : Nat := l.countP (fun d => d == 0)

theorem cZero_set1_lt (visited : List Nat) (v : Nat)
    (h : visited.getD v 3 = 0) :
    cZero (visited.set v 1) < cZero visited := by
  have hvr : v < visited.length := by
    by_contra hc
    rw [getD_default _ _ _ (by omega)] at h
    omega
  apply countP_set_lt _ _ _ _ 3 rfl hvr
  rw [h]
  rfl

theorem cZero_set2_le (l : List Nat) (v : Nat) : cZero (l.set v 2) ≤ cZero l :=
  countP_set_le _ _ _ _ 3 rfl

/-- The color sweep of `visit` over a pending neighbor list: color 2 nodes
are skipped, color 1 raises the cycle error, color 0 nodes are marked 1,
their adjacency row is visited, then they are marked 2 and emitted.  A color
outside 0/1/2 only arises for an out-of-range index (impossible for
API-built graphs) and is skipped.  The subtype carries the monotonicity
facts the nested recursion needs. -/
def tarjanGo (adj : List (List Nat)) (ns : List Nat) (visited : List Nat)
    (topo : List Nat) :
    Except String { p : List Nat × List Nat //
      cZero p.1 ≤ cZero visited ∧ p.1.length = visited.length } :=
  match ns with
  | [] => .ok ⟨(visited, topo), le_refl _, rfl⟩
  | v :: rest =>
    if visited.getD v 3 = 2 then tarjanGo adj rest visited topo
    else if visited.getD v 3 = 1 then .error "Graph contains at least one cycle"
    else if h0 : visited.getD v 3 = 0 then
      have hlt : cZero (visited.set v 1) < cZero visited := cZero_set1_lt visited v h0
      match tarjanGo adj (adj.getD v []) (visited.set v 1) topo with
      | .error e => .error e
      | .ok p =>
        have hle2 : cZero (p.val.1.set v 2) < cZero visited :=
          Nat.lt_of_le_of_lt (le_trans (cZero_set2_le p.val.1 v) p.property.1) hlt
        match tarjanGo adj rest (p.val.1.set v 2) (p.val.2 ++ [v]) with
        | .error e => .error e
        | .ok q =>
          .ok ⟨q.val,
            le_trans q.property.1 (Nat.le_of_lt hle2),
            by rw [q.property.2, List.length_set, p.property.2, List.length_set]⟩
    else tarjanGo adj rest visited topo
termination_by (cZero visited, ns.length)
decreasing_by
  · apply Prod.Lex.right
    simp
  · apply Prod.Lex.left
    exact hlt
  · apply Prod.Lex.left
    exact hle2
  · apply Prod.Lex.right
    simp

/-- Proof-free view of `tarjanGo`. -/
def tarjanRun (adj : List (List Nat)) (ns : List Nat) (visited : List Nat)
    (topo : List Nat) : Except String (List Nat × List Nat) :=
  match tarjanGo adj ns visited topo with
  | .error e => .error e
  | .ok p => .ok p.val

theorem tarjanRun_nil (adj : List (List Nat)) (visited topo : List Nat) :
    tarjanRun adj [] visited topo = .ok (visited, topo) := by
  unfold tarjanRun
  conv_lhs => unfold tarjanGo

theorem tarjanRun_cons_black (adj : List (List Nat)) (v : Nat) (rest : List Nat)
    (visited topo : List Nat) (h2 : visited.getD v 3 = 2) :
    tarjanRun adj (v :: rest) visited topo = tarjanRun adj rest visited topo := by
  unfold tarjanRun
  conv_lhs => unfold tarjanGo
  rw [if_pos h2]

theorem tarjanRun_cons_gray (adj : List (List Nat)) (v : Nat) (rest : List Nat)
    (visited topo : List Nat) (h1 : visited.getD v 3 = 1) :
    tarjanRun adj (v :: rest) visited topo
      = .error "Graph contains at least one cycle" := by
  unfold tarjanRun
  conv_lhs => unfold tarjanGo
  rw [if_neg (by rw [h1]; omega), if_pos h1]

theorem tarjanRun_cons_junk (adj : List (List Nat)) (v : Nat) (rest : List Nat)
    (visited topo : List Nat) (hj : visited.getD v 3 ≠ 0)
    (hj1 : visited.getD v 3 ≠ 1) (hj2 : visited.getD v 3 ≠ 2) :
    tarjanRun adj (v :: rest) visited topo = tarjanRun adj rest visited topo := by
  unfold tarjanRun
  conv_lhs => unfold tarjanGo
  rw [if_neg hj2, if_neg hj1, dif_neg hj]

theorem tarjanRun_cons_white (adj : List (List Nat)) (v : Nat) (rest : List Nat)
    (visited topo : List Nat) (h0 : visited.getD v 3 = 0) :
    tarjanRun adj (v :: rest) visited topo
      = match tarjanRun adj (adj.getD v []) (visited.set v 1) topo with
        | .error e => .error e
        | .ok p => tarjanRun adj rest (p.1.set v 2) (p.2 ++ [v]) := by
  unfold tarjanRun
  conv_lhs => unfold tarjanGo
  rw [if_neg (by rw [h0]; omega), if_neg (by rw [h0]; omega), dif_pos h0]
  cases hrec : tarjanGo adj (adj.getD v []) (visited.set v 1) topo with
  | error e => rfl
  | ok p =>
    simp only []
    cases hrec2 : tarjanGo adj rest (p.val.1.set v 2) (p.val.2 ++ [v]) with
    | error e => rfl
    | ok q => rfl

/-- The body of `visit(u)` as a single step. -/
def tarjanVisit1 (adj : List (List Nat)) (u : Nat) (visited : List Nat)
    (topo : List Nat) : Except String (List Nat × List Nat) :=
  if visited.getD u 3 = 2 then .ok (visited, topo)
  else if visited.getD u 3 = 1 then .error "Graph contains at least one cycle"
  else if visited.getD u 3 = 0 then
    match tarjanRun adj (adj.getD u []) (visited.set u 1) topo with
    | .error e => .error e
    | .ok p => .ok (p.1.set u 2, p.2 ++ [u])
  else .ok (visited, topo)

/-- One neighbor of the sweep is processed exactly by `tarjanVisit1`. -/
theorem tarjanRun_cons (adj : List (List Nat)) (v : Nat) (rest : List Nat)
    (visited topo : List Nat) :
    tarjanRun adj (v :: rest) visited topo
      = match tarjanVisit1 adj v visited topo with
        | .error e => .error e
        | .ok p => tarjanRun adj rest p.1 p.2 := by
  unfold tarjanVisit1
  by_cases h2 : visited.getD v 3 = 2
  · rw [if_pos h2, tarjanRun_cons_black adj v rest visited topo h2]
  · rw [if_neg h2]
    by_cases h1 : visited.getD v 3 = 1
    · rw [if_pos h1, tarjanRun_cons_gray adj v rest visited topo h1]
    · rw [if_neg h1]
      by_cases h0 : visited.getD v 3 = 0
      · rw [if_pos h0, tarjanRun_cons_white adj v rest visited topo h0]
        cases hrec : tarjanRun adj (adj.getD v []) (visited.set v 1) topo with
        | error e => rfl
        | ok pr => rfl
      · rw [if_neg h0, tarjanRun_cons_junk adj v rest visited topo h0 h1 h2]

/-- The top-level loop `for u in range(nodes): if visited[u] == 0: visit(u)`. -/
def tarjanTopGo (adj : List (List Nat)) (us : List Nat) (visited topo : List Nat) :
    Except String (List Nat × List Nat) :=
  match us with
  | [] => .ok (visited, topo)
  | u :: rest =>
    if visited.getD u 3 = 0 then
      match tarjanVisit1 adj u visited topo with
      | .error e => .error e
      | .ok p => tarjanTopGo adj rest p.1 p.2
    else tarjanTopGo adj rest visited topo

/-- `Graph.tarjan_topological_sort`: refuse undirected graphs, run all
top-level visits, report the caught cycle `ValueError`, or reverse the
post-order. -/
def Graph.tarjan_topological_sort (g : Graph) : TopoResult :=
  if ¬ g.directed then .notApplicable
  else
    match tarjanTopGo g.adj_list (List.range g.nodes)
        (List.replicate g.nodes 0) [] with
    | .error _ => .cycleDetected
    | .ok p => .order p.2.reverse


/-! ### C8: the concrete 4-node traversal scenario -/

/-- C8: on the directed graph with 4 nodes and edges
(0,1),(0,2),(1,3),(2,3) inserted in that order, BFS from 0 returns
[0,1,2,3] and DFS from 0 returns [0,1,3,2]. -/
theorem concrete_traversals :
    gDag4.bfs 0 = .ok [0, 1, 2, 3] ∧ gDag4.dfs 0 = .ok [0, 1, 3, 2] := by
  constructor
  · simp [Graph.bfs, gDag4, buildGraph, Graph.construct, Graph.addEdgeOps,
      Graph.add_edge, Graph.insertArc, adjAppend, matSet, matGet,
      bfsLoop_cons, bfsLoop_nil, bfsStep_cons, bfsStep_nil]
  · simp [Graph.dfs, Graph.dfs_util, gDag4, buildGraph, Graph.construct,
      Graph.addEdgeOps, Graph.add_edge, Graph.insertArc, adjAppend, matSet,
      matGet, dfsRun_cons_visited, dfsRun_cons_new, dfsRun_nil]

/-! ### C9: topological sorts on undirected graphs -/

/-- C9: on any undirected graph both topological sorts return the
not-applicable report (no exception, no order). -/
theorem topo_not_applicable (g : Graph) (h : g.directed = false) :
    g.kahn_topological_sort = .notApplicable ∧
    g.tarjan_topological_sort = .notApplicable := by
  constructor
  · unfold Graph.kahn_topological_sort
    rw [if_pos (by simp [h])]
  · unfold Graph.tarjan_topological_sort
    rw [if_pos (by simp [h])]

theorem topo_not_applicable_witness :
    gUndir.kahn_topological_sort = .notApplicable ∧
    gUndir.tarjan_topological_sort = .notApplicable :=
  topo_not_applicable gUndir (by decide)

/-! ### C10: queries do not mutate the graph

In this functional embedding each query consumes the graph state and
returns it together with its output, mirroring the Python methods, whose
bodies only read `self` (their `visited`/`order`/`in_degree`/`topo_order`
lists are locals).  The state returned is the state passed in. -/

inductive Query where
  | qEdgeExists (u v : Int)
  | qBfs (start : Int)
  | qDfs (start : Int)
  | qKahn
  | qTarjan
deriving Repr, DecidableEq

inductive QueryOut where
  | boolOut (b : Bool)
  | seqOut (r : Except String (List Nat))
  | topoOut (t : TopoResult)
deriving Repr

/-- Run one query method on the graph state, returning the state the method
leaves behind together with its output. -/
def runQuery (g : Graph) : Query → Graph × QueryOut
  | .qEdgeExists u v => (g, .boolOut (g.edge_exists u v))
  | .qBfs start => (g, .seqOut (g.bfs start))
  | .qDfs start => (g, .seqOut (g.dfs start))
  | .qKahn => (g, .topoOut g.kahn_topological_sort)
  | .qTarjan => (g, .topoOut g.tarjan_topological_sort)

/-- C10: every query operation (edge_exists, bfs, dfs, and both topological
sorts, in every outcome including cycle detection and not-applicable) leaves
the graph state — node count, directedness and all three representations —
unchanged. -/
theorem queries_pure (g : Graph) (q : Query) : (runQuery g q).1 = g := by
  cases q <;> rfl


/-! ### Arcs and reachability over the adjacency list -/

/-- One directed adjacency-list edge. -/
def Arc (adj : List (List Nat)) (u v : Nat) : Prop := v ∈ adj.getD u []

/-- Reachability along adjacency-list edges. -/
def Reach (adj : List (List Nat)) (s x : Nat) : Prop :=
  Relation.ReflTransGen (Arc adj) s x

/-! ### C7: BFS invariants -/

theorem bfsStep_mono (visited : List Bool) (queue : List Nat) (ns : List Nat)
    (y : Nat) (hy : visited.getD y true = true) :
    (bfsStep visited queue ns).1.getD y true = true := by
  induction ns generalizing visited queue with
  | nil => rw [bfsStep_nil]; exact hy
  | cons v rest ih =>
    by_cases hv : visited.getD v true
    · rw [bfsStep_cons, if_pos hv]
      exact ih visited queue hy
    · have hv2 : visited.getD v true = false := by simpa using hv
      rw [bfsStep_cons, if_neg hv]
      apply ih
      by_cases hyv : y = v
      · subst hyv
        rw [getD_set_self _ _ _ _ (getD_true_false_lt visited y hv2)]
      · rw [getD_set_ne _ _ _ _ _ hyv]
        exact hy

theorem bfsStep_queue_sub (visited : List Bool) (queue : List Nat) (ns : List Nat) :
    ∀ x ∈ (bfsStep visited queue ns).2, x ∈ queue ∨ x ∈ ns := by
  induction ns generalizing visited queue with
  | nil =>
    rw [bfsStep_nil]
    intro x hx
    exact Or.inl hx
  | cons v rest ih =>
    by_cases hv : visited.getD v true
    · rw [bfsStep_cons, if_pos hv]
      intro x hx
      rcases ih visited queue x hx with h | h
      · exact Or.inl h
      · exact Or.inr (List.mem_cons_of_mem v h)
    · rw [bfsStep_cons, if_neg hv]
      intro x hx
      rcases ih (visited.set v true) (queue ++ [v]) x hx with h | h
      · rcases List.mem_append.1 h with h | h
        · exact Or.inl h
        · simp at h
          exact Or.inr (by rw [h]; exact List.mem_cons_self v rest)
      · exact Or.inr (List.mem_cons_of_mem v h)

theorem bfsStep_queue_marked (visited : List Bool) (queue : List Nat)
    (ns : List Nat) (h : ∀ x ∈ queue, visited.getD x true = true) :
    ∀ x ∈ (bfsStep visited queue ns).2,
      (bfsStep visited queue ns).1.getD x true = true := by
  induction ns generalizing visited queue with
  | nil =>
    rw [bfsStep_nil]
    exact h
  | cons v rest ih =>
    by_cases hv : visited.getD v true
    · rw [bfsStep_cons, if_pos hv]
      exact ih visited queue h
    · have hv2 : visited.getD v true = false := by simpa using hv
      have hvr := getD_true_false_lt visited v hv2
      rw [bfsStep_cons, if_neg hv]
      apply ih
      intro x hx
      rcases List.mem_append.1 hx with hx | hx
      · by_cases hxv : x = v
        · subst hxv
          rw [getD_set_self _ _ _ _ hvr]
        · rw [getD_set_ne _ _ _ _ _ hxv]
          exact h x hx
      · simp at hx
        rw [hx, getD_set_self _ _ _ _ hvr]

theorem bfsStep_count (visited : List Bool) (queue : List Nat) (ns : List Nat)
    (s : Nat) (hs : visited.getD s true = true) :
    (bfsStep visited queue ns).2.count s = queue.count s := by
  induction ns generalizing visited queue with
  | nil => rw [bfsStep_nil]
  | cons v rest ih =>
    by_cases hv : visited.getD v true
    · rw [bfsStep_cons, if_pos hv]
      exact ih visited queue hs
    · have hv2 : visited.getD v true = false := by simpa using hv
      have hvr := getD_true_false_lt visited v hv2
      have hvs : v ≠ s := by
        intro he
        rw [he, hs] at hv2
        exact Bool.noConfusion hv2
      rw [bfsStep_cons, if_neg hv]
      have hmark : (visited.set v true).getD s true = true := by
        rw [getD_set_ne _ _ _ _ _ (Ne.symm hvs)]
        exact hs
      rw [ih (visited.set v true) (queue ++ [v]) hmark, List.count_append]
      have hz : List.count s [v] = 0 := by
        rw [List.count_eq_zero]
        simp only [List.mem_singleton]
        exact fun h => hvs h.symm
      rw [hz]
      omega

theorem bfsLoop_spec (adj : List (List Nat)) (s : Nat) (n : Nat) :
    ∀ visited queue order,
      2 * cFalse visited + queue.length ≤ n →
      (∀ x ∈ order, Reach adj s x) →
      (∀ x ∈ queue, Reach adj s x) →
      (∀ x ∈ queue, visited.getD x true = true) →
      visited.getD s true = true →
      order.count s + queue.count s = 1 →
      (∃ t, bfsLoop adj visited queue order = order ++ t) ∧
      (∀ x ∈ bfsLoop adj visited queue order, Reach adj s x) ∧
      (bfsLoop adj visited queue order).count s = 1 := by
  induction n using Nat.strong_induction_on with
  | _ n ih =>
    intro visited queue order hm h1 h2 h3 h4 h5
    cases queue with
    | nil =>
      rw [bfsLoop_nil]
      refine ⟨⟨[], by simp⟩, h1, ?_⟩
      simpa using h5
    | cons u rest =>
      rw [bfsLoop_cons]
      have hmeas := bfsLoop_dec adj visited u rest
      have hmeas2 : 2 * cFalse (bfsStep visited rest (adj.getD u [])).1
          + (bfsStep visited rest (adj.getD u [])).2.length < n := by
        calc 2 * cFalse (bfsStep visited rest (adj.getD u [])).1
            + (bfsStep visited rest (adj.getD u [])).2.length
            < 2 * cFalse visited + (u :: rest).length := hmeas
          _ ≤ n := hm
      have hu : Reach adj s u := h2 u (List.mem_cons_self u rest)
      have h1' : ∀ x ∈ order ++ [u], Reach adj s x := by
        intro x hx
        rcases List.mem_append.1 hx with hx | hx
        · exact h1 x hx
        · simp at hx
          rw [hx]
          exact hu
      have h2' : ∀ x ∈ (bfsStep visited rest (adj.getD u [])).2, Reach adj s x := by
        intro x hx
        rcases bfsStep_queue_sub visited rest (adj.getD u []) x hx with hx | hx
        · exact h2 x (List.mem_cons_of_mem u hx)
        · exact Relation.ReflTransGen.tail hu hx
      have h3' := bfsStep_queue_marked visited rest (adj.getD u [])
        (fun x hx => h3 x (List.mem_cons_of_mem u hx))
      have h4' := bfsStep_mono visited rest (adj.getD u []) s h4
      have h5' : (order ++ [u]).count s
          + (bfsStep visited rest (adj.getD u [])).2.count s = 1 := by
        rw [bfsStep_count visited rest (adj.getD u []) s h4]
        rw [List.count_append]
        have := h5
        rw [List.count_cons] at this
        simp only [List.count_singleton]
        omega
      obtain ⟨⟨t, ht⟩, hall, hcount⟩ := ih _ hmeas2 _ _ _ (le_refl _)
        h1' h2' h3' h4' h5'
      refine ⟨⟨[u] ++ t, by rw [ht, List.append_assoc]⟩, hall, hcount⟩


/-! ### C7: DFS invariants -/

theorem dfsRun_cFalse_le (adj : List (List Nat)) (ns : List Nat)
    (visited : List Bool) (order : List Nat) :
    cFalse (dfsRun adj ns visited order).1 ≤ cFalse visited :=
  (dfsGo adj ns visited order).property.1

theorem dfsRun_spec (adj : List (List Nat)) (s : Nat) (n : Nat) :
    ∀ ns visited order,
      cFalse visited ≤ n →
      (∀ v ∈ ns, Reach adj s v) →
      (∃ t, (dfsRun adj ns visited order).2 = order ++ t ∧
        (∀ x ∈ t, Reach adj s x ∧ visited.getD x true = false)) ∧
      (∀ y, visited.getD y true = true →
        (dfsRun adj ns visited order).1.getD y true = true) := by
  induction n using Nat.strong_induction_on with
  | _ n ihn =>
    intro ns
    induction ns with
    | nil =>
      intro visited order hm hr
      rw [dfsRun_nil]
      exact ⟨⟨[], by simp, by simp⟩, fun y hy => hy⟩
    | cons v rest ihns =>
      intro visited order hm hr
      by_cases hv : visited.getD v true
      · rw [dfsRun_cons_visited adj v rest visited order hv]
        exact ihns visited order hm (fun w hw => hr w (List.mem_cons_of_mem v hw))
      · have hv2 : visited.getD v true = false := by simpa using hv
        have hvr := getD_true_false_lt visited v hv2
        rw [dfsRun_cons_new adj v rest visited order hv2]
        have hReachV : Reach adj s v := hr v (List.mem_cons_self v rest)
        have hlt : cFalse (visited.set v true) < cFalse visited :=
          cFalse_set_lt visited v hv2
        have hm1 : cFalse (visited.set v true) < n := Nat.lt_of_lt_of_le hlt hm
        obtain ⟨⟨t1, ht1, ht1p⟩, hmono1⟩ :=
          ihn _ hm1 (adj.getD v []) (visited.set v true) (order ++ [v])
            (le_refl _)
            (fun w hw => Relation.ReflTransGen.tail hReachV hw)
        have hm2 : cFalse (dfsRun adj (adj.getD v []) (visited.set v true)
            (order ++ [v])).1 < n :=
          Nat.lt_of_le_of_lt
            (dfsRun_cFalse_le adj (adj.getD v []) (visited.set v true) (order ++ [v]))
            hm1
        obtain ⟨⟨t2, ht2, ht2p⟩, hmono2⟩ :=
          ihn _ hm2 rest
            (dfsRun adj (adj.getD v []) (visited.set v true) (order ++ [v])).1
            (dfsRun adj (adj.getD v []) (visited.set v true) (order ++ [v])).2
            (le_refl _)
            (fun w hw => hr w (List.mem_cons_of_mem v hw))
      -- assemble the emitted segment [v] ++ t1 ++ t2 and the two frame facts
        constructor
        · refine ⟨[v] ++ t1 ++ t2, ?_, ?_⟩
          · rw [ht2, ht1]
            simp [List.append_assoc]
          · intro x hx
            rcases List.mem_append.1 hx with hx | hx
            · rcases List.mem_append.1 hx with hx | hx
              · simp at hx
                rw [hx]
                exact ⟨hReachV, hv2⟩
              · obtain ⟨hxr, hxv⟩ := ht1p x hx
                refine ⟨hxr, ?_⟩
                by_cases hxveq : x = v
                · rw [hxveq, getD_set_self _ _ _ _ hvr] at hxv
                  exact Bool.noConfusion hxv
                · rw [getD_set_ne _ _ _ _ _ hxveq] at hxv
                  exact hxv
            · obtain ⟨hxr, hxv⟩ := ht2p x hx
              refine ⟨hxr, ?_⟩
              by_cases hxvis : visited.getD x true = true
              · have := hmono1 x (by
                  by_cases hxveq : x = v
                  · rw [hxveq, getD_set_self _ _ _ _ hvr]
                  · rw [getD_set_ne _ _ _ _ _ hxveq]
                    exact hxvis)
                rw [this] at hxv
                exact Bool.noConfusion hxv
              · simpa using hxvis
        · intro y hy
          apply hmono2
          apply hmono1
          by_cases hyv : y = v
          · rw [hyv, getD_set_self _ _ _ _ hvr]
          · rw [getD_set_ne _ _ _ _ _ hyv]
            exact hy

/-! ### C7: the combined traversal theorem -/

/-- C7: for any graph and any in-range start node, `bfs(start)` and
`dfs(start)` succeed and each return a sequence whose first element is
`start`, which contains `start` exactly once, and every element of which is
reachable from `start` along directed adjacency-list edges. -/
theorem traversals_start_unique_reachable (g : Graph) (start : Int)
    (h0 : 0 ≤ start) (hn : start < (g.nodes : Int)) :
    ∃ lb ld, g.bfs start = .ok lb ∧ g.dfs start = .ok ld ∧
      lb.head? = some start.toNat ∧ List.count start.toNat lb = 1 ∧
      (∀ x ∈ lb, Reach g.adj_list start.toNat x) ∧
      ld.head? = some start.toNat ∧ List.count start.toNat ld = 1 ∧
      (∀ x ∈ ld, Reach g.adj_list start.toNat x) := by
  have hrange : ¬ (start < 0 ∨ (g.nodes : Int) ≤ start) := by omega
  have hsn : start.toNat < g.nodes := by omega
  have hsr : start.toNat < (List.replicate g.nodes false).length := by
    rw [List.length_replicate]
    exact hsn
  have hsV : ((List.replicate g.nodes false).set start.toNat true).getD
      start.toNat true = true := getD_set_self _ _ _ _ hsr
  -- BFS
  have hbfs : ∃ lb, g.bfs start = .ok lb ∧ lb.head? = some start.toNat ∧
      List.count start.toNat lb = 1 ∧
      (∀ x ∈ lb, Reach g.adj_list start.toNat x) := by
    unfold Graph.bfs
    rw [if_neg hrange, bfsLoop_cons]
    have harg1 : ∀ x ∈ ([] : List Nat) ++ [start.toNat],
        Reach g.adj_list start.toNat x := by
      intro x hx
      simp at hx
      rw [hx]
      exact Relation.ReflTransGen.refl
    have harg2 : ∀ x ∈ (bfsStep ((List.replicate g.nodes false).set start.toNat true)
        [] (g.adj_list.getD start.toNat [])).2, Reach g.adj_list start.toNat x := by
      intro x hx
      rcases bfsStep_queue_sub _ _ _ x hx with hx | hx
      · exact absurd hx (List.not_mem_nil x)
      · exact Relation.ReflTransGen.tail Relation.ReflTransGen.refl hx
    have harg3 := bfsStep_queue_marked
      ((List.replicate g.nodes false).set start.toNat true) []
      (g.adj_list.getD start.toNat [])
      (fun x hx => absurd hx (List.not_mem_nil x))
    have harg4 := bfsStep_mono
      ((List.replicate g.nodes false).set start.toNat true) []
      (g.adj_list.getD start.toNat []) start.toNat hsV
    have harg5 : List.count start.toNat (([] : List Nat) ++ [start.toNat])
        + List.count start.toNat
          (bfsStep ((List.replicate g.nodes false).set start.toNat true) []
            (g.adj_list.getD start.toNat [])).2 = 1 := by
      rw [bfsStep_count _ _ _ _ hsV]
      simp
    obtain ⟨⟨t, ht⟩, hall, hcount⟩ :=
      bfsLoop_spec g.adj_list start.toNat _ _ _ _ (le_refl _)
        harg1 harg2 harg3 harg4 harg5
    refine ⟨_, rfl, ?_, hcount, hall⟩
    rw [ht]
    simp
  -- DFS
  have hdfs : ∃ ld, g.dfs start = .ok ld ∧ ld.head? = some start.toNat ∧
      List.count start.toNat ld = 1 ∧
      (∀ x ∈ ld, Reach g.adj_list start.toNat x) := by
    unfold Graph.dfs Graph.dfs_util
    rw [if_neg hrange]
    obtain ⟨⟨t, ht, htp⟩, _⟩ :=
      dfsRun_spec g.adj_list start.toNat
        (cFalse ((List.replicate g.nodes false).set start.toNat true))
        (g.adj_list.getD start.toNat [])
        ((List.replicate g.nodes false).set start.toNat true)
        ([] ++ [start.toNat])
        (le_refl _)
        (fun w hw => Relation.ReflTransGen.tail Relation.ReflTransGen.refl hw)
    have hsnott : start.toNat ∉ t := by
      intro hmem
      have h2 := (htp start.toNat hmem).2
      rw [hsV] at h2
      exact Bool.noConfusion h2
    refine ⟨_, rfl, ?_, ?_, ?_⟩
    · rw [ht]
      simp
    · rw [ht, List.count_append, List.count_eq_zero.2 hsnott]
      simp
    · intro x hx
      rw [ht] at hx
      rcases List.mem_append.1 hx with hx | hx
      · simp at hx
        rw [hx]
        exact Relation.ReflTransGen.refl
      · exact (htp x hx).1
  obtain ⟨lb, hb1, hb2, hb3, hb4⟩ := hbfs
  obtain ⟨ld, hd1, hd2, hd3, hd4⟩ := hdfs
  exact ⟨lb, ld, hb1, hd1, hb2, hb3, hb4, hd2, hd3, hd4⟩

theorem traversals_start_unique_reachable_witness :
    ∃ lb ld, gDag4.bfs 0 = .ok lb ∧ gDag4.dfs 0 = .ok ld ∧
      lb.head? = some (0 : Int).toNat ∧ List.count (0 : Int).toNat lb = 1 ∧
      (∀ x ∈ lb, Reach gDag4.adj_list (0 : Int).toNat x) ∧
      ld.head? = some (0 : Int).toNat ∧ List.count (0 : Int).toNat ld = 1 ∧
      (∀ x ∈ ld, Reach gDag4.adj_list (0 : Int).toNat x) :=
  traversals_start_unique_reachable gDag4 0 (by decide) (by decide)


/-! ### Acyclicity, positions, and the closed-predecessor cycle lemma -/

/-- The graph has no directed cycle along adjacency-list edges. -/
def Acyclic (adj : List (List Nat)) : Prop :=
  ∀ x, ¬ Relation.TransGen (Arc adj) x x

/-- First position of `x` (length of the list if absent). -/
def idxOf (x : Nat) : List Nat → Nat
  | [] => 0
  | y :: t => if y = x then 0 else idxOf x t + 1

theorem idxOf_cons (x y : Nat) (t : List Nat) :
    idxOf x (y :: t) = if y = x then 0 else idxOf x t + 1 := rfl

theorem idxOf_append_of_mem (x : Nat) (l l2 : List Nat) (h : x ∈ l) :
    idxOf x (l ++ l2) = idxOf x l := by
  induction l with
  | nil => simp at h
  | cons y t ih =>
    rw [List.cons_append, idxOf_cons, idxOf_cons]
    by_cases hyx : y = x
    · rw [if_pos hyx, if_pos hyx]
    · have hx : x ∈ t := by
        rcases List.mem_cons.1 h with h2 | h2
        · exact absurd h2.symm hyx
        · exact h2
      rw [if_neg hyx, if_neg hyx, ih hx]

theorem idxOf_append_self (x : Nat) (l : List Nat) (h : x ∉ l) :
    idxOf x (l ++ [x]) = l.length := by
  induction l with
  | nil => rw [List.nil_append, idxOf_cons, if_pos rfl]; rfl
  | cons y t ih =>
    have hyx : y ≠ x := fun he => h (he ▸ List.mem_cons_self y t)
    rw [List.cons_append, idxOf_cons, if_neg hyx,
      ih (fun ht => h (List.mem_cons_of_mem y ht)), List.length_cons]

theorem idxOf_lt_length (x : Nat) (l : List Nat) (h : x ∈ l) :
    idxOf x l < l.length := by
  induction l with
  | nil => simp at h
  | cons y t ih =>
    rw [idxOf_cons, List.length_cons]
    by_cases hyx : y = x
    · rw [if_pos hyx]; omega
    · have hx : x ∈ t := by
        rcases List.mem_cons.1 h with h2 | h2
        · exact absurd h2.symm hyx
        · exact h2
      rw [if_neg hyx]
      have := ih hx
      omega

theorem idxOf_reverse (x : Nat) (l : List Nat) (hnd : l.Nodup) (h : x ∈ l) :
    idxOf x l.reverse = l.length - 1 - idxOf x l := by
  induction l with
  | nil => simp at h
  | cons y t ih =>
    rw [List.reverse_cons]
    by_cases hyx : y = x
    · subst hyx
      have hnt : y ∉ t := (List.nodup_cons.1 hnd).1
      have hnt2 : y ∉ t.reverse := by simpa using hnt
      rw [idxOf_append_self y t.reverse hnt2, idxOf_cons, if_pos rfl]
      simp
    · have hx : x ∈ t := by
        rcases List.mem_cons.1 h with h2 | h2
        · exact absurd h2.symm hyx
        · exact h2
      have hxr : x ∈ t.reverse := by simpa using hx
      rw [idxOf_append_of_mem x t.reverse [y] hxr,
        ih (List.nodup_cons.1 hnd).2 hx, idxOf_cons, if_neg hyx, List.length_cons]
      have := idxOf_lt_length x t hx
      omega

/-- In a finite nonempty set where every element has an in-neighbor inside the
set, some node lies on a directed cycle. -/
theorem cycle_of_closed_preds (adj : List (List Nat)) (S : Finset Nat)
    (hne : S.Nonempty) (hpred : ∀ v ∈ S, ∃ u ∈ S, Arc adj u v) :
    ∃ x, Relation.TransGen (Arc adj) x x := by
  classical
  choose f hfS hfArc using hpred
  obtain ⟨v0, hv0⟩ := hne
  set f2 : Nat → Nat := fun v => if h : v ∈ S then f v h else v with hf2
  have hmem : ∀ i : Nat, (f2^[i]) v0 ∈ S := by
    intro i
    induction i with
    | zero => simpa using hv0
    | succ k ihk =>
      rw [Function.iterate_succ_apply']
      show (if h : f2^[k] v0 ∈ S then f (f2^[k] v0) h else f2^[k] v0) ∈ S
      rw [dif_pos ihk]
      exact hfS _ ihk
  have harc : ∀ i : Nat, Arc adj (f2^[i + 1] v0) (f2^[i] v0) := by
    intro i
    rw [Function.iterate_succ_apply']
    show Arc adj (if h : f2^[i] v0 ∈ S then f (f2^[i] v0) h else f2^[i] v0) _
    rw [dif_pos (hmem i)]
    exact hfArc _ (hmem i)
  have htrans : ∀ i d : Nat,
      Relation.TransGen (Arc adj) (f2^[i + d + 1] v0) (f2^[i] v0) := by
    intro i d
    induction d with
    | zero => exact Relation.TransGen.single (harc i)
    | succ k ihk => exact Relation.TransGen.head (harc (i + k + 1)) ihk
  have hcard : S.card < (Finset.range (S.card + 1)).card := by simp
  obtain ⟨i, hi, j, hj, hij, heq⟩ :=
    Finset.exists_ne_map_eq_of_card_lt_of_maps_to hcard
      (fun i _ => hmem i)
  rcases Nat.lt_or_ge i j with hlt | hge
  · refine ⟨f2^[i] v0, ?_⟩
    have h2 := htrans i (j - i - 1)
    rw [show i + (j - i - 1) + 1 = j from by omega, ← heq] at h2
    exact h2
  · have hlt2 : j < i := by omega
    refine ⟨f2^[j] v0, ?_⟩
    have h2 := htrans j (i - j - 1)
    rw [show j + (i - j - 1) + 1 = i from by omega, heq] at h2
    exact h2


/-! ### Remaining in-degree bookkeeping for Kahn -/

/-- Number of arcs into `v` from nodes not yet emitted into `topo`. -/
def remIndeg (n : Nat) (adj : List (List Nat)) (topo : List Nat) (v : Nat) : Nat :=
  ∑ u in (Finset.range n).filter (fun u => u ∉ topo), List.count v (adj.getD u [])

theorem remIndeg_nil (n : Nat) (adj : List (List Nat)) (v : Nat) :
    remIndeg n adj [] v = ∑ u in Finset.range n, List.count v (adj.getD u []) := by
  unfold remIndeg
  congr 1
  apply Finset.filter_true_of_mem
  intro x _
  simp

theorem remIndeg_append (n : Nat) (adj : List (List Nat)) (topo : List Nat)
    (u v : Nat) (hu : u < n) (hunotin : u ∉ topo) :
    remIndeg n adj topo v
      = remIndeg n adj (topo ++ [u]) v + List.count v (adj.getD u []) := by
  unfold remIndeg
  have hmem : u ∈ (Finset.range n).filter (fun x => x ∉ topo) := by
    simp [Finset.mem_filter, hu, hunotin]
  have hfeq : (Finset.range n).filter (fun x => x ∉ topo ++ [u])
      = ((Finset.range n).filter (fun x => x ∉ topo)).erase u := by
    ext x
    simp only [Finset.mem_filter, Finset.mem_erase, Finset.mem_range,
      List.mem_append, List.mem_singleton]
    push_neg
    tauto
  rw [hfeq, ← Finset.add_sum_erase _ _ hmem]
  omega

theorem remIndeg_eq_zero_iff (n : Nat) (adj : List (List Nat)) (topo : List Nat)
    (v : Nat) :
    remIndeg n adj topo v = 0 ↔
      ∀ u, u < n → u ∉ topo → List.count v (adj.getD u []) = 0 := by
  unfold remIndeg
  rw [Finset.sum_eq_zero_iff]
  constructor
  · intro h u hu hnotin
    exact h u (by simp [Finset.mem_filter, hu, hnotin])
  · intro h u hu
    simp only [Finset.mem_filter, Finset.mem_range] at hu
    exact h u hu.1 hu.2

theorem incAt_getD (l : List Int) (w v : Nat) (hv : v < l.length) :
    (incAt l w).getD v 0 = l.getD v 0 + (if w = v then 1 else 0) := by
  unfold incAt
  by_cases hwv : w = v
  · subst hwv
    rw [getD_set_self _ _ _ _ (by omega), if_pos rfl]
  · rw [getD_set_ne _ _ _ _ _ (fun he => hwv he.symm), if_neg hwv]
    omega

theorem incAt_length (l : List Int) (w : Nat) : (incAt l w).length = l.length :=
  List.length_set l w _

theorem foldInc_getD (ns : List Nat) (acc : List Int) (v : Nat)
    (hv : v < acc.length) :
    (ns.foldl (fun a w => incAt a w) acc).getD v 0
      = acc.getD v 0 + List.count v ns := by
  induction ns generalizing acc with
  | nil => simp
  | cons w rest ih =>
    rw [List.foldl_cons, ih (incAt acc w) (by rw [incAt_length]; exact hv),
      incAt_getD acc w v hv]
    by_cases hwv : w = v
    · subst hwv
      rw [if_pos rfl]
      simp [List.count_cons]
      omega
    · rw [if_neg hwv]
      have hb : (w == v) = false := by simpa using hwv
      simp [List.count_cons, hb]

theorem foldInc_length (ns : List Nat) (acc : List Int) :
    (ns.foldl (fun a w => incAt a w) acc).length = acc.length := by
  induction ns generalizing acc with
  | nil => rfl
  | cons w rest ih => rw [List.foldl_cons, ih, incAt_length]

theorem kahnFold_length (adj : List (List Nat)) (m : Nat) (acc : List Int) :
    ((List.range m).foldl
      (fun acc2 u => (adj.getD u []).foldl (fun a w => incAt a w) acc2) acc).length
      = acc.length := by
  induction m with
  | zero => rfl
  | succ k ih =>
    rw [List.range_succ, List.foldl_append, List.foldl_cons, List.foldl_nil,
      foldInc_length, ih]

theorem kahnFold_getD (adj : List (List Nat)) (m : Nat) (acc : List Int)
    (v : Nat) (hv : v < acc.length) :
    ((List.range m).foldl
      (fun acc2 u => (adj.getD u []).foldl (fun a w => incAt a w) acc2) acc).getD v 0
      = acc.getD v 0 + ∑ u in Finset.range m, (List.count v (adj.getD u []) : Int) := by
  induction m with
  | zero => simp
  | succ k ih =>
    rw [List.range_succ, List.foldl_append, List.foldl_cons, List.foldl_nil,
      foldInc_getD _ _ _ (by rw [kahnFold_length]; exact hv), ih,
      Finset.sum_range_succ]
    ring

theorem kahnInDegrees_length (n : Nat) (adj : List (List Nat)) :
    (kahnInDegrees n adj).length = n := by
  unfold kahnInDegrees
  rw [kahnFold_length, List.length_replicate]

theorem kahnInDegrees_getD (n : Nat) (adj : List (List Nat)) (v : Nat)
    (hv : v < n) :
    (kahnInDegrees n adj).getD v 0 = ((remIndeg n adj [] v : Nat) : Int) := by
  unfold kahnInDegrees
  rw [kahnFold_getD adj n (List.replicate n 0) v (by rw [List.length_replicate]; exact hv),
    getD_replicate _ _ _ _ hv, remIndeg_nil]
  push_cast
  ring


/-! ### Adjacency-list facts shared by both sorts -/

/-- The adjacency-list facts both topological sorts rely on (consequences of
`WF` for API-built graphs). -/
structure AdjWF (n : Nat) (adj : List (List Nat)) : Prop where
  len : adj.length = n
  mem : ∀ u v, v ∈ adj.getD u [] → v < n
  nodup : ∀ u, (adj.getD u []).Nodup

theorem AdjWF_of_WF (g : Graph) (hw : WF g) : AdjWF g.nodes g.adj_list :=
  ⟨hw.adjLen, hw.adjMem, hw.adjNodup⟩

theorem arc_lt (n : Nat) (adj : List (List Nat)) (h : AdjWF n adj) (u v : Nat)
    (harc : Arc adj u v) : u < n ∧ v < n := by
  refine ⟨?_, h.mem u v harc⟩
  by_contra hc
  unfold Arc at harc
  rw [getD_default _ _ _ (by rw [h.len]; omega)] at harc
  simp at harc

/-! ### Characterization of one Kahn relaxation sweep -/

theorem kahnRelax_getD (indeg : List Int) (queue ns : List Nat)
    (hnd : ns.Nodup) (v : Nat) (hv : v < indeg.length) :
    (kahnRelax indeg queue ns).1.getD v 0
      = indeg.getD v 0 - (if v ∈ ns then 1 else 0) := by
  induction ns generalizing indeg queue with
  | nil =>
    rw [kahnRelax_nil]
    simp
  | cons w rest ih =>
    rw [kahnRelax_cons]
    have hrnd : rest.Nodup := (List.nodup_cons.1 hnd).2
    have hwrest : w ∉ rest := (List.nodup_cons.1 hnd).1
    have hlen2 : v < (indeg.set w (indeg.getD w 0 - 1)).length := by
      rw [List.length_set]; exact hv
    have key : ∀ q2 : List Nat,
        (kahnRelax (indeg.set w (indeg.getD w 0 - 1)) q2 rest).1.getD v 0
          = (indeg.set w (indeg.getD w 0 - 1)).getD v 0
            - (if v ∈ rest then 1 else 0) :=
      fun q2 => ih (indeg.set w (indeg.getD w 0 - 1)) q2 hrnd hlen2
    by_cases h0 : (indeg.set w (indeg.getD w 0 - 1)).getD w 1 = 0
    · rw [if_pos h0, key]
      by_cases hwv : w = v
      · subst hwv
        rw [getD_set_self _ _ _ _ hv,
          if_pos (List.mem_cons_self w rest), if_neg (by simpa using hwrest)]
        omega
      · rw [getD_set_ne _ _ _ _ _ (fun he => hwv he.symm)]
        have hmemiff : (v ∈ w :: rest) ↔ v ∈ rest := by
          rw [List.mem_cons]
          constructor
          · intro h
            rcases h with h | h
            · exact absurd h.symm hwv
            · exact h
          · exact Or.inr
        by_cases hvr : v ∈ rest
        · rw [if_pos hvr, if_pos (hmemiff.2 hvr)]
        · rw [if_neg hvr, if_neg (fun hr => hvr (hmemiff.1 hr))]
    · rw [if_neg h0, key]
      by_cases hwv : w = v
      · subst hwv
        rw [getD_set_self _ _ _ _ hv,
          if_pos (List.mem_cons_self w rest), if_neg (by simpa using hwrest)]
        omega
      · rw [getD_set_ne _ _ _ _ _ (fun he => hwv he.symm)]
        have hmemiff : (v ∈ w :: rest) ↔ v ∈ rest := by
          rw [List.mem_cons]
          constructor
          · intro h
            rcases h with h | h
            · exact absurd h.symm hwv
            · exact h
          · exact Or.inr
        by_cases hvr : v ∈ rest
        · rw [if_pos hvr, if_pos (hmemiff.2 hvr)]
        · rw [if_neg hvr, if_neg (fun hr => hvr (hmemiff.1 hr))]

theorem kahnRelax_queue (indeg : List Int) (queue ns : List Nat)
    (hnd : ns.Nodup) (hrange : ∀ w ∈ ns, w < indeg.length) :
    (kahnRelax indeg queue ns).2
      = queue ++ ns.filter (fun w => indeg.getD w 0 == 1) := by
  induction ns generalizing indeg queue with
  | nil =>
    rw [kahnRelax_nil]
    simp
  | cons w rest ih =>
    rw [kahnRelax_cons]
    have hrnd : rest.Nodup := (List.nodup_cons.1 hnd).2
    have hwrest : w ∉ rest := (List.nodup_cons.1 hnd).1
    have hwlen : w < indeg.length := hrange w (List.mem_cons_self w rest)
    have hval : (indeg.set w (indeg.getD w 0 - 1)).getD w 1
        = indeg.getD w 0 - 1 := getD_set_self indeg w _ 1 hwlen
    have hrange2 : ∀ x ∈ rest, x < (indeg.set w (indeg.getD w 0 - 1)).length := by
      intro x hx
      rw [List.length_set]
      exact hrange x (List.mem_cons_of_mem w hx)
    have hfcongr : rest.filter
          (fun x => (indeg.set w (indeg.getD w 0 - 1)).getD x 0 == 1)
        = rest.filter (fun x => indeg.getD x 0 == 1) := by
      apply List.filter_congr
      intro x hx
      have hxw : x ≠ w := fun he => hwrest (he ▸ hx)
      rw [getD_set_ne _ _ _ _ _ hxw]
    by_cases h0 : (indeg.set w (indeg.getD w 0 - 1)).getD w 1 = 0
    · rw [if_pos h0, ih _ _ hrnd hrange2, hfcongr]
      rw [hval] at h0
      have hw1 : (indeg.getD w 0 == 1) = true := by
        rw [beq_iff_eq]
        omega
      rw [List.filter_cons, if_pos hw1]
      simp [List.append_assoc]
    · rw [if_neg h0, ih _ _ hrnd hrange2, hfcongr]
      rw [hval] at h0
      have hw1 : (indeg.getD w 0 == 1) = false := by
        rw [beq_eq_false_iff_ne]
        intro he
        rw [he] at h0
        omega
      rw [List.filter_cons, if_neg (by rw [hw1]; exact Bool.noConfusion)]


/-! ### The Kahn loop invariant -/

theorem count_nodup (ns : List Nat) (hnd : ns.Nodup) (v : Nat) :
    List.count v ns = if v ∈ ns then 1 else 0 := by
  by_cases h : v ∈ ns
  · rw [if_pos h]
    exact List.count_eq_one_of_mem hnd h
  · rw [if_neg h]
    exact List.count_eq_zero.2 h

/-- State invariant of the Kahn `while queue:` loop. -/
structure KahnInv (n : Nat) (adj : List (List Nat)) (indeg : List Int)
    (queue topo : List Nat) : Prop where
  ilen : indeg.length = n
  nodupTQ : (topo ++ queue).Nodup
  memTQ : ∀ x ∈ topo ++ queue, x < n
  ival : ∀ v, v < n → indeg.getD v 0 = ((remIndeg n adj topo v : Nat) : Int)
  zeroMem : ∀ v, v < n → (remIndeg n adj topo v = 0 ↔ v ∈ topo ++ queue)
  ordered : ∀ u v, Arc adj u v → v ∈ topo → u ∈ topo ∧ idxOf u topo < idxOf v topo

theorem kahnLoop_spec (n : Nat) (adj : List (List Nat)) (hadj : AdjWF n adj)
    (m : Nat) :
    ∀ indeg queue topo,
      cPos indeg + queue.length ≤ m →
      KahnInv n adj indeg queue topo →
      (kahnLoop adj indeg queue topo).Nodup ∧
      (∀ x ∈ kahnLoop adj indeg queue topo, x < n) ∧
      (∀ u v, Arc adj u v → v ∈ kahnLoop adj indeg queue topo →
        u ∈ kahnLoop adj indeg queue topo ∧
        idxOf u (kahnLoop adj indeg queue topo)
          < idxOf v (kahnLoop adj indeg queue topo)) ∧
      (∀ v, v < n → (remIndeg n adj (kahnLoop adj indeg queue topo) v = 0 ↔
        v ∈ kahnLoop adj indeg queue topo)) := by
  induction m using Nat.strong_induction_on with
  | _ m ih =>
    intro indeg queue topo hm hinv
    cases queue with
    | nil =>
      rw [kahnLoop_nil]
      have hnodup : topo.Nodup := by simpa using hinv.nodupTQ
      refine ⟨hnodup, ?_, hinv.ordered, ?_⟩
      · intro x hx
        exact hinv.memTQ x (by simpa using hx)
      · intro v hv
        rw [hinv.zeroMem v hv]
        simp
    | cons u rest =>
      rw [kahnLoop_cons]
      have hun : u < n := hinv.memTQ u (by simp)
      have hnd0 := hinv.nodupTQ
      rw [List.nodup_append] at hnd0
      obtain ⟨hndT, hndUR, hdisj⟩ := hnd0
      have hutopo : u ∉ topo := fun hmem => hdisj hmem (by simp)
      have hndrest : rest.Nodup := (List.nodup_cons.1 hndUR).2
      have hurest : u ∉ rest := (List.nodup_cons.1 hndUR).1
      have hnsnd := hadj.nodup u
      have hnsrange : ∀ w ∈ adj.getD u [], w < indeg.length := by
        intro w hw
        rw [hinv.ilen]
        exact hadj.mem u w hw
      have hq := kahnRelax_queue indeg rest (adj.getD u []) hnsnd hnsrange
      have hgetD : ∀ v, v < n →
          (kahnRelax indeg rest (adj.getD u [])).1.getD v 0
            = indeg.getD v 0 - (if v ∈ adj.getD u [] then 1 else 0) := by
        intro v hv
        exact kahnRelax_getD indeg rest _ hnsnd v (by rw [hinv.ilen]; exact hv)
      have hremEq : ∀ v, remIndeg n adj topo v
          = remIndeg n adj (topo ++ [u]) v + List.count v (adj.getD u []) :=
        fun v => remIndeg_append n adj topo u v hun hutopo
      have hcount : ∀ v, List.count v (adj.getD u [])
          = if v ∈ adj.getD u [] then 1 else 0 :=
        fun v => count_nodup _ hnsnd v
      -- facts about the freshly enqueued nodes
      have hEsub : ∀ w ∈ (adj.getD u []).filter (fun w => indeg.getD w 0 == 1),
          w ∈ adj.getD u [] := fun w hw => (List.mem_filter.1 hw).1
      have hEn : ∀ w ∈ (adj.getD u []).filter (fun w => indeg.getD w 0 == 1),
          w < n := fun w hw => hadj.mem u w (hEsub w hw)
      have hErem : ∀ w ∈ (adj.getD u []).filter (fun w => indeg.getD w 0 == 1),
          remIndeg n adj topo w = 1 := by
        intro w hw
        have h1 : indeg.getD w 0 = 1 := by
          have h2 := (List.mem_filter.1 hw).2
          rwa [beq_iff_eq] at h2
        have h3 := hinv.ival w (hEn w hw)
        rw [h1] at h3
        exact_mod_cast h3.symm
      have hEold : ∀ w ∈ (adj.getD u []).filter (fun w => indeg.getD w 0 == 1),
          w ∉ topo ++ u :: rest := by
        intro w hw hmem
        have h0 := (hinv.zeroMem w (hEn w hw)).2 hmem
        rw [hErem w hw] at h0
        omega
      -- the new invariant
      have hinv2 : KahnInv n adj (kahnRelax indeg rest (adj.getD u [])).1
          (kahnRelax indeg rest (adj.getD u [])).2 (topo ++ [u]) := by
        refine ⟨?_, ?_, ?_, ?_, ?_, ?_⟩
        · rw [kahnRelax_length, hinv.ilen]
        · rw [hq]
          have hassoc : (topo ++ [u]) ++ (rest
                ++ (adj.getD u []).filter (fun w => indeg.getD w 0 == 1))
              = (topo ++ u :: rest)
                ++ (adj.getD u []).filter (fun w => indeg.getD w 0 == 1) := by
            simp
          rw [hassoc, List.nodup_append]
          refine ⟨hinv.nodupTQ, List.Nodup.filter _ hnsnd, ?_⟩
          intro a ha haE
          exact hEold a haE ha
        · rw [hq]
          intro x hx
          simp only [List.mem_append, List.mem_singleton, List.mem_cons] at hx
          rcases hx with (hx | hx) | hx | hx
          · exact hinv.memTQ x (by simp [hx])
          · rcases hx with hx | hx
            · exact hx ▸ hun
            · simp at hx
          · exact hinv.memTQ x (by simp [hx])
          · exact hEn x hx
        · intro v hv
          rw [hgetD v hv, hinv.ival v hv]
          have h1 := hremEq v
          rw [hcount v] at h1
          by_cases hvns : v ∈ adj.getD u []
          · rw [if_pos hvns]
            rw [if_pos hvns] at h1
            omega
          · rw [if_neg hvns]
            rw [if_neg hvns] at h1
            omega
        · intro v hv
          have h1 := hremEq v
          rw [hcount v] at h1
          rw [hq]
          constructor
          · intro hz
            by_cases hvns : v ∈ adj.getD u []
            · rw [if_pos hvns] at h1
              have hrem1 : remIndeg n adj topo v = 1 := by omega
              have hval1 : indeg.getD v 0 = 1 := by
                have h3 := hinv.ival v hv
                rw [hrem1] at h3
                exact_mod_cast h3
              have hvE : v ∈ (adj.getD u []).filter
                  (fun w => indeg.getD w 0 == 1) := by
                rw [List.mem_filter]
                exact ⟨hvns, by rw [beq_iff_eq]; exact hval1⟩
              simp only [List.mem_append]
              tauto
            · rw [if_neg hvns] at h1
              have hrem0 : remIndeg n adj topo v = 0 := by omega
              have hmem := (hinv.zeroMem v hv).1 hrem0
              simp only [List.mem_append, List.mem_cons] at hmem
              simp only [List.mem_append, List.mem_singleton, List.mem_cons]
              tauto
          · intro hmem
            simp only [List.mem_append, List.mem_singleton] at hmem
            rcases hmem with (hx | hx) | hx | hx
            · have h0 := (hinv.zeroMem v hv).2 (by simp [hx])
              have hle : remIndeg n adj (topo ++ [u]) v
                  ≤ remIndeg n adj topo v := by omega
              omega
            · have h0 := (hinv.zeroMem v hv).2 (by simp [hx])
              omega
            · have h0 := (hinv.zeroMem v hv).2 (by simp [hx])
              omega
            · have hrem1 := hErem v hx
              have hvns := hEsub v hx
              rw [if_pos hvns] at h1
              omega
        · intro u2 v2 harc hv2
          rcases List.mem_append.1 hv2 with hv2 | hv2
          · obtain ⟨hu2mem, hidx⟩ := hinv.ordered u2 v2 harc hv2
            refine ⟨List.mem_append_left _ hu2mem, ?_⟩
            rw [idxOf_append_of_mem u2 topo [u] hu2mem,
              idxOf_append_of_mem v2 topo [u] hv2]
            exact hidx
          · simp only [List.mem_singleton] at hv2
            subst hv2
            have hrem0 : remIndeg n adj topo v2 = 0 :=
              (hinv.zeroMem v2 hun).2 (by simp)
            have hcnt := (remIndeg_eq_zero_iff n adj topo v2).1 hrem0
            have hu2n : u2 < n := (arc_lt n adj hadj u2 v2 harc).1
            have hu2topo : u2 ∈ topo := by
              by_contra hc
              have h0 := hcnt u2 hu2n hc
              rw [List.count_eq_zero] at h0
              exact h0 harc
            refine ⟨List.mem_append_left _ hu2topo, ?_⟩
            rw [idxOf_append_of_mem u2 topo [v2] hu2topo,
              idxOf_append_self v2 topo hutopo]
            exact idxOf_lt_length u2 topo hu2topo
      have hdec := kahnLoop_dec adj indeg u rest
      exact ih _ (Nat.lt_of_lt_of_le hdec hm) _ _ _ (le_refl _) hinv2


/-! ### Kahn: cycle detection and order correctness -/

theorem kahn_loop_result (g : Graph) (hw : WF g) :
    (kahnLoop g.adj_list (kahnInDegrees g.nodes g.adj_list)
        ((List.range g.nodes).filter
          (fun u => (kahnInDegrees g.nodes g.adj_list).getD u 0 == 0)) []).Nodup ∧
    (∀ x ∈ kahnLoop g.adj_list (kahnInDegrees g.nodes g.adj_list)
        ((List.range g.nodes).filter
          (fun u => (kahnInDegrees g.nodes g.adj_list).getD u 0 == 0)) [], x < g.nodes) ∧
    (∀ u v, Arc g.adj_list u v →
      v ∈ kahnLoop g.adj_list (kahnInDegrees g.nodes g.adj_list)
        ((List.range g.nodes).filter
          (fun u => (kahnInDegrees g.nodes g.adj_list).getD u 0 == 0)) [] →
      u ∈ kahnLoop g.adj_list (kahnInDegrees g.nodes g.adj_list)
        ((List.range g.nodes).filter
          (fun u => (kahnInDegrees g.nodes g.adj_list).getD u 0 == 0)) [] ∧
      idxOf u (kahnLoop g.adj_list (kahnInDegrees g.nodes g.adj_list)
        ((List.range g.nodes).filter
          (fun u => (kahnInDegrees g.nodes g.adj_list).getD u 0 == 0)) [])
        < idxOf v (kahnLoop g.adj_list (kahnInDegrees g.nodes g.adj_list)
        ((List.range g.nodes).filter
          (fun u => (kahnInDegrees g.nodes g.adj_list).getD u 0 == 0)) [])) ∧
    (∀ v, v < g.nodes →
      (remIndeg g.nodes g.adj_list
          (kahnLoop g.adj_list (kahnInDegrees g.nodes g.adj_list)
            ((List.range g.nodes).filter
              (fun u => (kahnInDegrees g.nodes g.adj_list).getD u 0 == 0)) []) v = 0 ↔
        v ∈ kahnLoop g.adj_list (kahnInDegrees g.nodes g.adj_list)
          ((List.range g.nodes).filter
            (fun u => (kahnInDegrees g.nodes g.adj_list).getD u 0 == 0)) [])) := by
  have hadj := AdjWF_of_WF g hw
  apply kahnLoop_spec g.nodes g.adj_list hadj _ _ _ _ (le_refl _)
  refine ⟨kahnInDegrees_length _ _, ?_, ?_, ?_, ?_, ?_⟩
  · rw [List.nil_append]
    exact List.Nodup.filter _ (List.nodup_range g.nodes)
  · intro x hx
    rw [List.nil_append, List.mem_filter] at hx
    exact List.mem_range.1 hx.1
  · intro v hv
    exact kahnInDegrees_getD g.nodes g.adj_list v hv
  · intro v hv
    rw [List.nil_append, List.mem_filter, List.mem_range]
    constructor
    · intro hz
      refine ⟨hv, ?_⟩
      rw [beq_iff_eq, kahnInDegrees_getD g.nodes g.adj_list v hv, hz]
      rfl
    · intro hmem
      have h1 := hmem.2
      rw [beq_iff_eq, kahnInDegrees_getD g.nodes g.adj_list v hv] at h1
      exact_mod_cast h1
  · intro u v harc hv
    simp at hv

/-- For a directed API-built graph, Kahn reports a cycle exactly when the
adjacency structure has one; and when it returns an order, that order is a
duplicate-free enumeration of exactly the nodes, respecting every arc. -/
theorem kahn_spec (g : Graph) (hw : WF g) (hdir : g.directed = true) :
    (g.kahn_topological_sort = .cycleDetected ↔ ¬ Acyclic g.adj_list) ∧
    (∀ l, g.kahn_topological_sort = .order l →
      l.Nodup ∧ (∀ x, x ∈ l ↔ x < g.nodes) ∧
      (∀ u v, Arc g.adj_list u v → v ∈ l → u ∈ l ∧ idxOf u l < idxOf v l)) := by
  have hadj := AdjWF_of_WF g hw
  obtain ⟨hnd, hmem, hord, hzero⟩ := kahn_loop_result g hw
  have hwrap : g.kahn_topological_sort
      = if (kahnLoop g.adj_list (kahnInDegrees g.nodes g.adj_list)
            ((List.range g.nodes).filter
              (fun u => (kahnInDegrees g.nodes g.adj_list).getD u 0 == 0)) []).length
          ≠ g.nodes then TopoResult.cycleDetected
        else TopoResult.order (kahnLoop g.adj_list (kahnInDegrees g.nodes g.adj_list)
            ((List.range g.nodes).filter
              (fun u => (kahnInDegrees g.nodes g.adj_list).getD u 0 == 0)) []) := by
    unfold Graph.kahn_topological_sort
    rw [if_neg (by rw [hdir]; simp)]
  -- completeness when the output has full length
  have hcomplete : (kahnLoop g.adj_list (kahnInDegrees g.nodes g.adj_list)
        ((List.range g.nodes).filter
          (fun u => (kahnInDegrees g.nodes g.adj_list).getD u 0 == 0)) []).length
      = g.nodes →
      ∀ x, x ∈ kahnLoop g.adj_list (kahnInDegrees g.nodes g.adj_list)
        ((List.range g.nodes).filter
          (fun u => (kahnInDegrees g.nodes g.adj_list).getD u 0 == 0)) [] ↔
        x < g.nodes := by
    intro hlen x
    constructor
    · intro hx
      exact hmem x hx
    · intro hx
      have hsub : (kahnLoop g.adj_list (kahnInDegrees g.nodes g.adj_list)
          ((List.range g.nodes).filter
            (fun u => (kahnInDegrees g.nodes g.adj_list).getD u 0 == 0)) []).toFinset
          ⊆ Finset.range g.nodes := by
        intro y hy
        rw [List.mem_toFinset] at hy
        rw [Finset.mem_range]
        exact hmem y hy
      have hcard : (Finset.range g.nodes).card
          ≤ (kahnLoop g.adj_list (kahnInDegrees g.nodes g.adj_list)
            ((List.range g.nodes).filter
              (fun u => (kahnInDegrees g.nodes g.adj_list).getD u 0 == 0)) []).toFinset.card := by
        rw [List.toFinset_card_of_nodup hnd, hlen, Finset.card_range]
      have heq := Finset.eq_of_subset_of_card_le hsub hcard
      have : x ∈ (kahnLoop g.adj_list (kahnInDegrees g.nodes g.adj_list)
          ((List.range g.nodes).filter
            (fun u => (kahnInDegrees g.nodes g.adj_list).getD u 0 == 0)) []).toFinset := by
        rw [heq, Finset.mem_range]
        exact hx
      rwa [List.mem_toFinset] at this
  -- full length implies acyclicity
  have hacyc : (kahnLoop g.adj_list (kahnInDegrees g.nodes g.adj_list)
        ((List.range g.nodes).filter
          (fun u => (kahnInDegrees g.nodes g.adj_list).getD u 0 == 0)) []).length
      = g.nodes → Acyclic g.adj_list := by
    intro hlen x hcyc
    have hstep : ∀ a b, Relation.TransGen (Arc g.adj_list) a b →
        b ∈ kahnLoop g.adj_list (kahnInDegrees g.nodes g.adj_list)
          ((List.range g.nodes).filter
            (fun u => (kahnInDegrees g.nodes g.adj_list).getD u 0 == 0)) [] →
        a ∈ kahnLoop g.adj_list (kahnInDegrees g.nodes g.adj_list)
          ((List.range g.nodes).filter
            (fun u => (kahnInDegrees g.nodes g.adj_list).getD u 0 == 0)) [] ∧
        idxOf a (kahnLoop g.adj_list (kahnInDegrees g.nodes g.adj_list)
          ((List.range g.nodes).filter
            (fun u => (kahnInDegrees g.nodes g.adj_list).getD u 0 == 0)) [])
          < idxOf b (kahnLoop g.adj_list (kahnInDegrees g.nodes g.adj_list)
          ((List.range g.nodes).filter
            (fun u => (kahnInDegrees g.nodes g.adj_list).getD u 0 == 0)) []) := by
      intro a b h
      induction h with
      | single harc => exact fun hb => hord _ _ harc hb
      | tail hab hbc ihab =>
        intro hc
        obtain ⟨hbR, hidx1⟩ := hord _ _ hbc hc
        obtain ⟨haR, hidx2⟩ := ihab hbR
        exact ⟨haR, Nat.lt_trans hidx2 hidx1⟩
    have hxn : x < g.nodes := by
      cases hcyc with
      | single h => exact (arc_lt g.nodes g.adj_list hadj x x h).1
      | tail h1 h2 => exact (arc_lt g.nodes g.adj_list hadj _ x h2).2
    have hxR := (hcomplete hlen x).2 hxn
    obtain ⟨_, hidx⟩ := hstep x x hcyc hxR
    omega
  -- short output implies a cycle
  have hcyc : (kahnLoop g.adj_list (kahnInDegrees g.nodes g.adj_list)
        ((List.range g.nodes).filter
          (fun u => (kahnInDegrees g.nodes g.adj_list).getD u 0 == 0)) []).length
      ≠ g.nodes → ¬ Acyclic g.adj_list := by
    intro hlen
    have hS : ((Finset.range g.nodes).filter
        (fun v => v ∉ kahnLoop g.adj_list (kahnInDegrees g.nodes g.adj_list)
          ((List.range g.nodes).filter
            (fun u => (kahnInDegrees g.nodes g.adj_list).getD u 0 == 0)) [])).Nonempty := by
      rw [Finset.filter_nonempty_iff]
      by_contra hc
      push_neg at hc
      have hsub2 : Finset.range g.nodes
          ⊆ (kahnLoop g.adj_list (kahnInDegrees g.nodes g.adj_list)
            ((List.range g.nodes).filter
              (fun u => (kahnInDegrees g.nodes g.adj_list).getD u 0 == 0)) []).toFinset := by
        intro y hy
        rw [List.mem_toFinset]
        exact hc y hy
      have hsub1 : (kahnLoop g.adj_list (kahnInDegrees g.nodes g.adj_list)
            ((List.range g.nodes).filter
              (fun u => (kahnInDegrees g.nodes g.adj_list).getD u 0 == 0)) []).toFinset
          ⊆ Finset.range g.nodes := by
        intro y hy
        rw [List.mem_toFinset] at hy
        rw [Finset.mem_range]
        exact hmem y hy
      have h1 := Finset.card_le_card hsub1
      have h2 := Finset.card_le_card hsub2
      rw [List.toFinset_card_of_nodup hnd, Finset.card_range] at h1 h2
      omega
    intro hA
    obtain ⟨x, hxcyc⟩ := cycle_of_closed_preds g.adj_list _ hS (by
      intro v hv
      rw [Finset.mem_filter, Finset.mem_range] at hv
      obtain ⟨hvn, hvnot⟩ := hv
      have hremne : remIndeg g.nodes g.adj_list
          (kahnLoop g.adj_list (kahnInDegrees g.nodes g.adj_list)
            ((List.range g.nodes).filter
              (fun u => (kahnInDegrees g.nodes g.adj_list).getD u 0 == 0)) []) v ≠ 0 := by
        intro h0
        exact hvnot ((hzero v hvn).1 h0)
      rw [ne_eq, remIndeg_eq_zero_iff] at hremne
      push_neg at hremne
      obtain ⟨w, hwn, hwnot, hwcount⟩ := hremne
      refine ⟨w, ?_, ?_⟩
      · rw [Finset.mem_filter, Finset.mem_range]
        exact ⟨hwn, hwnot⟩
      · unfold Arc
        by_contra hc
        exact hwcount (List.count_eq_zero.2 hc))
    exact hA x hxcyc
  constructor
  · constructor
    · intro hres
      by_cases hlen : (kahnLoop g.adj_list (kahnInDegrees g.nodes g.adj_list)
          ((List.range g.nodes).filter
            (fun u => (kahnInDegrees g.nodes g.adj_list).getD u 0 == 0)) []).length
          = g.nodes
      · rw [hwrap, if_neg (by omega)] at hres
        exact absurd hres (by simp)
      · exact hcyc hlen
    · intro hnA
      by_cases hlen : (kahnLoop g.adj_list (kahnInDegrees g.nodes g.adj_list)
          ((List.range g.nodes).filter
            (fun u => (kahnInDegrees g.nodes g.adj_list).getD u 0 == 0)) []).length
          = g.nodes
      · exact absurd (hacyc hlen) hnA
      · rw [hwrap, if_pos hlen]
  · intro l hres
    by_cases hlen : (kahnLoop g.adj_list (kahnInDegrees g.nodes g.adj_list)
        ((List.range g.nodes).filter
          (fun u => (kahnInDegrees g.nodes g.adj_list).getD u 0 == 0)) []).length
        = g.nodes
    · rw [hwrap, if_neg (by omega)] at hres
      have hleq : l = kahnLoop g.adj_list (kahnInDegrees g.nodes g.adj_list)
          ((List.range g.nodes).filter
            (fun u => (kahnInDegrees g.nodes g.adj_list).getD u 0 == 0)) [] := by
        cases hres
        rfl
      subst hleq
      exact ⟨hnd, hcomplete hlen, hord⟩
    · rw [hwrap, if_pos hlen] at hres
      exact absurd hres (by simp)


/-! ### The DFS-sort (tarjan-style) 3-color invariant -/

/-- Color of a node in the `visited` array: 0 unvisited, 1 in-progress,
2 done (3 for an out-of-range index). -/
def colorOf (visited : List Nat) (v : Nat) : Nat := visited.getD v 3

theorem colorOf_set_self (visited : List Nat) (v c : Nat)
    (h : v < visited.length) : colorOf (visited.set v c) v = c :=
  getD_set_self _ _ _ _ h

theorem colorOf_set_ne (visited : List Nat) (v w c : Nat) (h : w ≠ v) :
    colorOf (visited.set v c) w = colorOf visited w :=
  getD_set_ne _ _ _ _ _ h

theorem colorOf_in_range (visited : List Nat) (v : Nat)
    (h : colorOf visited v ≠ 3) : v < visited.length := by
  by_contra hc
  unfold colorOf at h
  rw [getD_default _ _ _ (by omega)] at h
  exact h rfl

/-- State invariant of the DFS-based sort: `topo` lists exactly the done
nodes, in an order where every node follows all its successors. -/
structure TarInv (n : Nat) (adj : List (List Nat)) (visited topo : List Nat) :
    Prop where
  len : visited.length = n
  colors : ∀ v, v < n →
    colorOf visited v = 0 ∨ colorOf visited v = 1 ∨ colorOf visited v = 2
  topoNodup : topo.Nodup
  topoBlack : ∀ v, v ∈ topo ↔ colorOf visited v = 2
  blackClosed : ∀ u, colorOf visited u = 2 → ∀ v, Arc adj u v →
    colorOf visited v = 2
  ordered : ∀ u v, Arc adj u v → u ∈ topo →
    v ∈ topo ∧ idxOf v topo < idxOf u topo

/-- The monotonicity facts `tarjanGo` records in its result subtype, read
back through `tarjanRun`. -/
theorem tarjanRun_cZero_le (adj : List (List Nat)) (ns visited topo : List Nat)
    (p : List Nat × List Nat) (h : tarjanRun adj ns visited topo = .ok p) :
    cZero p.1 ≤ cZero visited ∧ p.1.length = visited.length := by
  unfold tarjanRun at h
  cases hgo : tarjanGo adj ns visited topo with
  | error e =>
    rw [hgo] at h
    exact Except.noConfusion h
  | ok q =>
    rw [hgo] at h
    injection h with h
    subst h
    exact q.property

theorem tarjanRun_spec (n : Nat) (adj : List (List Nat)) (hadj : AdjWF n adj)
    (m : Nat) :
    ∀ ns visited topo,
      cZero visited ≤ m →
      (∀ v ∈ ns, v < n) →
      TarInv n adj visited topo →
      (∀ gy, colorOf visited gy = 1 →
        ∀ v ∈ ns, Relation.TransGen (Arc adj) gy v) →
      (∀ p, tarjanRun adj ns visited topo = .ok p →
          TarInv n adj p.1 p.2 ∧
          (∀ v, colorOf p.1 v = 1 ↔ colorOf visited v = 1) ∧
          (∀ v, colorOf visited v = 2 → colorOf p.1 v = 2) ∧
          (∀ v ∈ ns, colorOf p.1 v = 2)) ∧
      (∀ e, tarjanRun adj ns visited topo = .error e →
          ∃ x, Relation.TransGen (Arc adj) x x) := by
  induction m using Nat.strong_induction_on with
  | _ m ih =>
    intro ns
    induction ns with
    | nil =>
      intro visited topo hm hrange hinv hgray
      constructor
      · intro p hp
        rw [tarjanRun_nil] at hp
        injection hp with hp
        subst hp
        exact ⟨hinv, fun v => Iff.rfl, fun v h => h, fun v hv => absurd hv (List.not_mem_nil v)⟩
      · intro e he
        rw [tarjanRun_nil] at he
        exact Except.noConfusion he
    | cons v rest ihns =>
      intro visited topo hm hrange hinv hgray
      have hvn : v < n := hrange v (List.mem_cons_self v rest)
      have hrange2 : ∀ w ∈ rest, w < n :=
        fun w hw => hrange w (List.mem_cons_of_mem v hw)
      rcases hinv.colors v hvn with hc | hc | hc
      · -- white: mark in-progress, dive into the adjacency row, finish
        rw [tarjanRun_cons_white adj v rest visited topo hc]
        have hvlen : v < visited.length :=
          colorOf_in_range visited v (by rw [hc]; omega)
        have hinv1 : TarInv n adj (visited.set v 1) topo := by
          refine ⟨by rw [List.length_set, hinv.len], ?_, hinv.topoNodup, ?_, ?_, hinv.ordered⟩
          · intro w hw
            by_cases hwv : w = v
            · subst hwv
              rw [colorOf_set_self _ _ _ hvlen]
              omega
            · rw [colorOf_set_ne _ _ _ _ hwv]
              exact hinv.colors w hw
          · intro w
            by_cases hwv : w = v
            · subst hwv
              rw [colorOf_set_self _ _ _ hvlen]
              rw [hinv.topoBlack w, hc]
              omega
            · rw [colorOf_set_ne _ _ _ _ hwv]
              exact hinv.topoBlack w
          · intro u hu w harc
            have huv : u ≠ v := by
              intro he
              subst he
              by_cases huv2 : u < visited.length
              · rw [colorOf_set_self _ _ _ huv2] at hu
                omega
              · unfold colorOf at hu
                rw [List.set_eq_of_length_le (by omega)] at hu
                rw [getD_default _ _ _ (by omega)] at hu
                omega
            rw [colorOf_set_ne _ _ _ _ huv] at hu
            have hw := hinv.blackClosed u hu w harc
            have hwv : w ≠ v := by
              intro he
              subst he
              rw [hc] at hw
              omega
            rw [colorOf_set_ne _ _ _ _ hwv]
            exact hw
        have hgray1 : ∀ gy, colorOf (visited.set v 1) gy = 1 →
            ∀ w ∈ adj.getD v [], Relation.TransGen (Arc adj) gy w := by
          intro gy hgy w hw
          by_cases hgyv : gy = v
          · subst hgyv
            exact Relation.TransGen.single hw
          · rw [colorOf_set_ne _ _ _ _ hgyv] at hgy
            exact Relation.TransGen.tail
              (hgray gy hgy v (List.mem_cons_self v rest)) hw
        have hlt : cZero (visited.set v 1) < cZero visited :=
          cZero_set1_lt visited v hc
        have hmlt : cZero (visited.set v 1) < m := Nat.lt_of_lt_of_le hlt hm
        obtain ⟨hok1, herr1⟩ := ih _ hmlt (adj.getD v []) (visited.set v 1)
          topo (le_refl _) (fun w hw => hadj.mem v w hw) hinv1 hgray1
        cases hrec : tarjanRun adj (adj.getD v []) (visited.set v 1) topo with
        | error e =>
          constructor
          · intro p hp
            simp at hp
          · intro e2 he2
            exact herr1 e hrec
        | ok p1 =>
          obtain ⟨hinvA, hiffA, hmonoA, hblacksA⟩ := hok1 p1 hrec
          obtain ⟨hle1, hlen1⟩ := tarjanRun_cZero_le adj _ _ _ p1 hrec
          have hvlenA : v < p1.1.length := by
            rw [hlen1, List.length_set]
            exact hvlen
          have hvgrayA : colorOf p1.1 v = 1 :=
            (hiffA v).2 (colorOf_set_self visited v 1 hvlen)
          have hvnotin : v ∉ p1.2 := by
            intro hmem
            have h2 := (hinvA.topoBlack v).1 hmem
            omega
          -- the finalized state after marking v done and emitting it
          have hinv2 : TarInv n adj (p1.1.set v 2) (p1.2 ++ [v]) := by
            refine ⟨by rw [List.length_set, hinvA.len], ?_, ?_, ?_, ?_, ?_⟩
            · intro w hw
              by_cases hwv : w = v
              · subst hwv
                rw [colorOf_set_self _ _ _ hvlenA]
                omega
              · rw [colorOf_set_ne _ _ _ _ hwv]
                exact hinvA.colors w hw
            · rw [List.nodup_append]
              refine ⟨hinvA.topoNodup, List.nodup_singleton v, ?_⟩
              intro a ha hav
              have hav2 : a = v := by simpa using hav
              exact hvnotin (hav2 ▸ ha)
            · intro w
              by_cases hwv : w = v
              · subst hwv
                rw [colorOf_set_self _ _ _ hvlenA]
                simp
              · rw [colorOf_set_ne _ _ _ _ hwv, List.mem_append]
                rw [← hinvA.topoBlack w]
                simp [hwv]
            · intro u hu w harc
              by_cases huv : u = v
              · subst huv
                have hwB := hblacksA w harc
                by_cases hwv : w = u
                · subst hwv
                  rw [colorOf_set_self _ _ _ hvlenA]
                · rw [colorOf_set_ne _ _ _ _ hwv]
                  exact hwB
              · rw [colorOf_set_ne _ _ _ _ huv] at hu
                have hwB := hinvA.blackClosed u hu w harc
                by_cases hwv : w = v
                · subst hwv
                  rw [colorOf_set_self _ _ _ hvlenA]
                · rw [colorOf_set_ne _ _ _ _ hwv]
                  exact hwB
            · intro u w harc hu
              rcases List.mem_append.1 hu with hu | hu
              · obtain ⟨hwmem, hidx⟩ := hinvA.ordered u w harc hu
                refine ⟨List.mem_append_left _ hwmem, ?_⟩
                rw [idxOf_append_of_mem w p1.2 [v] hwmem,
                  idxOf_append_of_mem u p1.2 [v] hu]
                exact hidx
              · simp only [List.mem_singleton] at hu
                subst hu
                have hwB := hblacksA w harc
                have hwmem : w ∈ p1.2 := (hinvA.topoBlack w).2 hwB
                refine ⟨List.mem_append_left _ hwmem, ?_⟩
                rw [idxOf_append_of_mem w p1.2 [u] hwmem,
                  idxOf_append_self u p1.2 hvnotin]
                exact idxOf_lt_length w p1.2 hwmem
          have hiff2 : ∀ w, colorOf (p1.1.set v 2) w = 1 ↔ colorOf visited w = 1 := by
            intro w
            by_cases hwv : w = v
            · subst hwv
              rw [colorOf_set_self _ _ _ hvlenA, hc]
              omega
            · rw [colorOf_set_ne _ _ _ _ hwv, hiffA w,
                colorOf_set_ne _ _ _ _ hwv]
          have hmono2 : ∀ w, colorOf visited w = 2 → colorOf (p1.1.set v 2) w = 2 := by
            intro w hw
            by_cases hwv : w = v
            · subst hwv
              rw [colorOf_set_self _ _ _ hvlenA]
            · rw [colorOf_set_ne _ _ _ _ hwv]
              apply hmonoA
              rw [colorOf_set_ne _ _ _ _ hwv]
              exact hw
          have hgray2 : ∀ gy, colorOf (p1.1.set v 2) gy = 1 →
              ∀ w ∈ rest, Relation.TransGen (Arc adj) gy w := by
            intro gy hgy w hw
            exact hgray gy ((hiff2 gy).1 hgy) w (List.mem_cons_of_mem v hw)
          have hm2 : cZero (p1.1.set v 2) < m := by
            have h2 := cZero_set2_le p1.1 v
            omega
          obtain ⟨hok2, herr2⟩ := ih _ hm2 rest (p1.1.set v 2) (p1.2 ++ [v])
            (le_refl _) hrange2 hinv2 hgray2
          simp only []
          constructor
          · intro p hp
            obtain ⟨hinvR, hiffR, hmonoR, hblacksR⟩ := hok2 p hp
            refine ⟨hinvR, ?_, ?_, ?_⟩
            · intro w
              rw [hiffR w, hiff2 w]
            · intro w hw
              exact hmonoR w (hmono2 w hw)
            · intro w hw
              rcases List.mem_cons.1 hw with hw | hw
              · subst hw
                exact hmonoR w (colorOf_set_self _ _ _ hvlenA)
              · exact hblacksR w hw
          · intro e he
            exact herr2 e he
      · -- in-progress: the cycle report
        rw [tarjanRun_cons_gray adj v rest visited topo hc]
        constructor
        · intro p hp
          exact Except.noConfusion hp
        · intro e he
          exact ⟨v, hgray v hc v (List.mem_cons_self v rest)⟩
      · -- done: skip
        rw [tarjanRun_cons_black adj v rest visited topo hc]
        obtain ⟨hok1, herr1⟩ := ihns visited topo hm hrange2 hinv
          (fun gy hgy w hw => hgray gy hgy w (List.mem_cons_of_mem v hw))
        constructor
        · intro p hp
          obtain ⟨hinvR, hiffR, hmonoR, hblacksR⟩ := hok1 p hp
          refine ⟨hinvR, hiffR, hmonoR, ?_⟩
          intro w hw
          rcases List.mem_cons.1 hw with hw | hw
          · subst hw
            exact hmonoR w hc
          · exact hblacksR w hw
        · exact herr1


/-! ### The top-level visit loop of the DFS-based sort -/

theorem tarjanVisit1_eq (adj : List (List Nat)) (u : Nat)
    (visited topo : List Nat) :
    tarjanVisit1 adj u visited topo = tarjanRun adj [u] visited topo := by
  rw [tarjanRun_cons]
  cases h : tarjanVisit1 adj u visited topo with
  | error e => rfl
  | ok p =>
    simp only []
    rw [tarjanRun_nil]

theorem tarjanTopGo_nil (adj : List (List Nat)) (visited topo : List Nat) :
    tarjanTopGo adj [] visited topo = .ok (visited, topo) := rfl

theorem tarjanTopGo_cons (adj : List (List Nat)) (u : Nat) (rest : List Nat)
    (visited topo : List Nat) :
    tarjanTopGo adj (u :: rest) visited topo
      = if visited.getD u 3 = 0 then
          match tarjanVisit1 adj u visited topo with
          | .error e => .error e
          | .ok p => tarjanTopGo adj rest p.1 p.2
        else tarjanTopGo adj rest visited topo := rfl

theorem tarjanTopGo_spec (n : Nat) (adj : List (List Nat)) (hadj : AdjWF n adj) :
    ∀ us visited topo,
      (∀ u ∈ us, u < n) →
      TarInv n adj visited topo →
      (∀ gy, colorOf visited gy ≠ 1) →
      (∀ p, tarjanTopGo adj us visited topo = .ok p →
          TarInv n adj p.1 p.2 ∧ (∀ gy, colorOf p.1 gy ≠ 1) ∧
          (∀ v, colorOf visited v = 2 → colorOf p.1 v = 2) ∧
          (∀ u ∈ us, colorOf p.1 u = 2)) ∧
      (∀ e, tarjanTopGo adj us visited topo = .error e →
          ∃ x, Relation.TransGen (Arc adj) x x) := by
  intro us
  induction us with
  | nil =>
    intro visited topo hrange hinv hnogray
    constructor
    · intro p hp
      rw [tarjanTopGo_nil] at hp
      injection hp with hp
      subst hp
      exact ⟨hinv, hnogray, fun v h => h, fun v hv => absurd hv (List.not_mem_nil v)⟩
    · intro e he
      rw [tarjanTopGo_nil] at he
      exact Except.noConfusion he
  | cons u rest ihus =>
    intro visited topo hrange hinv hnogray
    have hun : u < n := hrange u (List.mem_cons_self u rest)
    have hrange2 : ∀ w ∈ rest, w < n :=
      fun w hw => hrange w (List.mem_cons_of_mem u hw)
    rw [tarjanTopGo_cons]
    by_cases hcu : visited.getD u 3 = 0
    · rw [if_pos hcu]
      obtain ⟨hok1, herr1⟩ := tarjanRun_spec n adj hadj (cZero visited)
        [u] visited topo (le_refl _) (by simpa using hun) hinv
        (fun gy hgy => absurd hgy (hnogray gy))
      rw [tarjanVisit1_eq]
      cases hrec : tarjanRun adj [u] visited topo with
      | error e =>
        constructor
        · intro p hp
          simp at hp
        · intro e2 he2
          exact herr1 e hrec
      | ok p1 =>
        obtain ⟨hinv1, hiff1, hmono1, hblacks1⟩ := hok1 p1 hrec
        have hnogray1 : ∀ gy, colorOf p1.1 gy ≠ 1 :=
          fun gy hgy => hnogray gy ((hiff1 gy).1 hgy)
        obtain ⟨hok2, herr2⟩ := ihus p1.1 p1.2 hrange2 hinv1 hnogray1
        simp only []
        constructor
        · intro p hp
          obtain ⟨hinvR, hnograyR, hmonoR, hblacksR⟩ := hok2 p hp
          refine ⟨hinvR, hnograyR, ?_, ?_⟩
          · intro w hw
            exact hmonoR w (hmono1 w hw)
          · intro w hw
            rcases List.mem_cons.1 hw with hw | hw
            · subst hw
              exact hmonoR w (hblacks1 w (List.mem_singleton_self w))
            · exact hblacksR w hw
        · exact herr2
    · rw [if_neg hcu]
      obtain ⟨hok1, herr1⟩ := ihus visited topo hrange2 hinv hnogray
      constructor
      · intro p hp
        obtain ⟨hinvR, hnograyR, hmonoR, hblacksR⟩ := hok1 p hp
        refine ⟨hinvR, hnograyR, hmonoR, ?_⟩
        intro w hw
        rcases List.mem_cons.1 hw with hw | hw
        · subst hw
          have hcw : colorOf visited w = 2 := by
            rcases hinv.colors w hun with h | h | h
            · exact absurd h hcu
            · exact absurd h (hnogray w)
            · exact h
          exact hmonoR w hcw
        · exact hblacksR w hw
      · exact herr1


/-! ### DFS-based sort: cycle detection and order correctness -/

theorem tarjan_initial_inv (g : Graph) :
    TarInv g.nodes g.adj_list (List.replicate g.nodes 0) [] := by
  refine ⟨List.length_replicate _ _, ?_, List.nodup_nil, ?_, ?_, ?_⟩
  · intro v hv
    unfold colorOf
    rw [getD_replicate _ _ _ _ hv]
    omega
  · intro v
    simp only [List.not_mem_nil, false_iff]
    unfold colorOf
    by_cases hv : v < g.nodes
    · rw [getD_replicate _ _ _ _ hv]
      omega
    · rw [getD_default _ _ _ (by rw [List.length_replicate]; omega)]
      omega
  · intro u hu w harc
    exfalso
    unfold colorOf at hu
    by_cases hv : u < g.nodes
    · rw [getD_replicate _ _ _ _ hv] at hu
      omega
    · rw [getD_default _ _ _ (by rw [List.length_replicate]; omega)] at hu
      omega
  · intro u v harc hu
    exact absurd hu (List.not_mem_nil u)

theorem tarjan_initial_nogray (g : Graph) :
    ∀ gy, colorOf (List.replicate g.nodes 0) gy ≠ 1 := by
  intro gy
  unfold colorOf
  by_cases hv : gy < g.nodes
  · rw [getD_replicate _ _ _ _ hv]
    omega
  · rw [getD_default _ _ _ (by rw [List.length_replicate]; omega)]
    omega

/-- For a directed API-built graph, the DFS-based sort reports a cycle
exactly when the adjacency structure has one; and when it returns an order,
that order is a duplicate-free enumeration of exactly the nodes, respecting
every arc. -/
theorem tarjan_spec (g : Graph) (hw : WF g) (hdir : g.directed = true) :
    (g.tarjan_topological_sort = .cycleDetected ↔ ¬ Acyclic g.adj_list) ∧
    (∀ l, g.tarjan_topological_sort = .order l →
      l.Nodup ∧ (∀ x, x ∈ l ↔ x < g.nodes) ∧
      (∀ u v, Arc g.adj_list u v → v ∈ l → u ∈ l ∧ idxOf u l < idxOf v l)) := by
  have hadj := AdjWF_of_WF g hw
  have hwrap : g.tarjan_topological_sort
      = match tarjanTopGo g.adj_list (List.range g.nodes)
          (List.replicate g.nodes 0) [] with
        | .error _ => TopoResult.cycleDetected
        | .ok p => TopoResult.order p.2.reverse := by
    unfold Graph.tarjan_topological_sort
    rw [if_neg (by rw [hdir]; simp)]
  obtain ⟨hok, herr⟩ := tarjanTopGo_spec g.nodes g.adj_list hadj
    (List.range g.nodes) (List.replicate g.nodes 0) []
    (fun u hu => List.mem_range.1 hu) (tarjan_initial_inv g)
    (tarjan_initial_nogray g)
  cases hres : tarjanTopGo g.adj_list (List.range g.nodes)
      (List.replicate g.nodes 0) [] with
  | error e =>
    rw [hres] at hwrap
    simp only [] at hwrap
    constructor
    · rw [hwrap]
      simp only [true_iff]
      intro hA
      obtain ⟨x, hx⟩ := herr e hres
      exact hA x hx
    · intro l hl
      rw [hwrap] at hl
      exact absurd hl (by simp)
  | ok p =>
    rw [hres] at hwrap
    simp only [] at hwrap
    obtain ⟨hinvR, hnograyR, hmonoR, hblacksR⟩ := hok p hres
    have hmemIff : ∀ x, x ∈ p.2 ↔ x < g.nodes := by
      intro x
      constructor
      · intro hx
        have h2 := (hinvR.topoBlack x).1 hx
        have h3 : x < p.1.length := colorOf_in_range p.1 x (by omega)
        rw [hinvR.len] at h3
        exact h3
      · intro hx
        exact (hinvR.topoBlack x).2 (hblacksR x (List.mem_range.2 hx))
    have hstep : ∀ a b, Relation.TransGen (Arc g.adj_list) a b →
        a ∈ p.2 → b ∈ p.2 ∧ idxOf b p.2 < idxOf a p.2 := by
      intro a b h
      induction h with
      | single harc => exact fun ha => hinvR.ordered _ _ harc ha
      | tail hab hbc ihab =>
        intro ha
        obtain ⟨hb, h1⟩ := ihab ha
        obtain ⟨hc, h2⟩ := hinvR.ordered _ _ hbc hb
        exact ⟨hc, Nat.lt_trans h2 h1⟩
    have hacyc : Acyclic g.adj_list := by
      intro x hcyc
      have hxn : x < g.nodes := by
        cases hcyc with
        | single h => exact (arc_lt g.nodes g.adj_list hadj x x h).1
        | tail h1 h2 => exact (arc_lt g.nodes g.adj_list hadj _ x h2).2
      obtain ⟨_, hidx⟩ := hstep x x hcyc ((hmemIff x).2 hxn)
      omega
    constructor
    · rw [hwrap]
      constructor
      · intro h2
        exact absurd h2 (by simp)
      · intro hnA
        exact absurd hacyc hnA
    · intro l hl
      rw [hwrap] at hl
      have hleq : l = p.2.reverse := by
        cases hl
        rfl
      subst hleq
      refine ⟨List.nodup_reverse.2 hinvR.topoNodup, ?_, ?_⟩
      · intro x
        rw [List.mem_reverse]
        exact hmemIff x
      · intro u v harc hv
        rw [List.mem_reverse] at hv
        have hun : u < g.nodes := (arc_lt g.nodes g.adj_list hadj u v harc).1
        have hu : u ∈ p.2 := (hmemIff u).2 hun
        obtain ⟨hv2, hidx⟩ := hinvR.ordered u v harc hu
        refine ⟨List.mem_reverse.2 hu, ?_⟩
        rw [idxOf_reverse u p.2 hinvR.topoNodup hu,
          idxOf_reverse v p.2 hinvR.topoNodup hv2]
        have h1 := idxOf_lt_length u p.2 hu
        have h2 := idxOf_lt_length v p.2 hv2
        omega


/-! ### C1 and C2: the two sorts agree and are correct on DAGs -/

theorem kahn_cases (g : Graph) (hdir : g.directed = true) :
    g.kahn_topological_sort = .cycleDetected ∨
      ∃ l, g.kahn_topological_sort = .order l := by
  unfold Graph.kahn_topological_sort
  rw [if_neg (by rw [hdir]; simp)]
  by_cases hlen : (kahnLoop g.adj_list (kahnInDegrees g.nodes g.adj_list)
      ((List.range g.nodes).filter
        (fun u => (kahnInDegrees g.nodes g.adj_list).getD u 0 == 0)) []).length
      ≠ g.nodes
  · rw [if_pos hlen]
    exact Or.inl rfl
  · rw [if_neg hlen]
    exact Or.inr ⟨_, rfl⟩

theorem tarjan_cases (g : Graph) (hdir : g.directed = true) :
    g.tarjan_topological_sort = .cycleDetected ∨
      ∃ l, g.tarjan_topological_sort = .order l := by
  unfold Graph.tarjan_topological_sort
  rw [if_neg (by rw [hdir]; simp)]
  cases hres : tarjanTopGo g.adj_list (List.range g.nodes)
      (List.replicate g.nodes 0) [] with
  | error e => exact Or.inl rfl
  | ok p => exact Or.inr ⟨_, rfl⟩

/-- C2: for every API-built graph, Kahn reports `CycleDetected` iff the
DFS-based sort does; in particular both report it on the 3-node cycle
(0,1),(1,2),(2,0). -/
theorem topo_cycle_agreement :
    (∀ g : Graph, Reachable g →
      (g.kahn_topological_sort = .cycleDetected ↔
        g.tarjan_topological_sort = .cycleDetected)) ∧
    gCyc3.kahn_topological_sort = .cycleDetected ∧
    gCyc3.tarjan_topological_sort = .cycleDetected := by
  refine ⟨?_, ?_, ?_⟩
  · intro g hreach
    have hw := WF_reachable g hreach
    cases hdir : g.directed with
    | false =>
      have h1 : g.kahn_topological_sort = .notApplicable := by
        unfold Graph.kahn_topological_sort
        rw [if_pos (by rw [hdir]; simp)]
      have h2 : g.tarjan_topological_sort = .notApplicable := by
        unfold Graph.tarjan_topological_sort
        rw [if_pos (by rw [hdir]; simp)]
      rw [h1, h2]
    | true =>
      rw [(kahn_spec g hw hdir).1, (tarjan_spec g hw hdir).1]
  · simp [Graph.kahn_topological_sort, gCyc3, buildGraph, Graph.construct,
      Graph.addEdgeOps, Graph.add_edge, Graph.insertArc, adjAppend, matSet,
      matGet, kahnInDegrees, incAt, kahnLoop_cons, kahnLoop_nil,
      kahnRelax_cons, kahnRelax_nil, List.range_succ]
  · simp [Graph.tarjan_topological_sort, gCyc3, buildGraph, Graph.construct,
      Graph.addEdgeOps, Graph.add_edge, Graph.insertArc, adjAppend, matSet,
      matGet, tarjanTopGo, tarjanVisit1, tarjanRun_nil, tarjanRun_cons_black,
      tarjanRun_cons_gray, tarjanRun_cons_white, List.range_succ]

theorem topo_cycle_agreement_witness :
    gCyc3.kahn_topological_sort = .cycleDetected ↔
      gCyc3.tarjan_topological_sort = .cycleDetected :=
  topo_cycle_agreement.1 gCyc3 (buildGraph_reachable 3 true _ (by decide))

/-- C1: for every acyclic directed API-built graph, both topological sorts
return an order that is a permutation of `0..nodes-1` in which, for every
edge `(u,v)` of the edge list, `u` appears before `v`. -/
theorem topo_sorts_correct (g : Graph) (h : Reachable g)
    (hdir : g.directed = true) (hacyc : Acyclic g.adj_list) :
    (∃ lk, g.kahn_topological_sort = .order lk ∧
      lk.Perm (List.range g.nodes) ∧
      (∀ p ∈ g.edge_list, p.1 ∈ lk ∧ p.2 ∈ lk ∧ idxOf p.1 lk < idxOf p.2 lk)) ∧
    (∃ lt2, g.tarjan_topological_sort = .order lt2 ∧
      lt2.Perm (List.range g.nodes) ∧
      (∀ p ∈ g.edge_list, p.1 ∈ lt2 ∧ p.2 ∈ lt2 ∧
        idxOf p.1 lt2 < idxOf p.2 lt2)) := by
  have hw := WF_reachable g h
  have hedge : ∀ p ∈ g.edge_list, Arc g.adj_list p.1 p.2 := by
    intro p hp
    obtain ⟨h1, h2⟩ := hw.edgeMem p hp
    exact (hw.sync2 p.1 p.2 h1 h2).2 (by rwa [Prod.mk.eta])
  constructor
  · rcases kahn_cases g hdir with hres | ⟨lk, hres⟩
    · exact absurd ((kahn_spec g hw hdir).1.1 hres) (not_not_intro hacyc)
    · obtain ⟨hnd, hmemiff, hord⟩ := (kahn_spec g hw hdir).2 lk hres
      refine ⟨lk, hres, ?_, ?_⟩
      · exact (List.perm_ext_iff_of_nodup hnd (List.nodup_range _)).2
          (fun a => by rw [hmemiff a, List.mem_range])
      · intro p hp
        have harc := hedge p hp
        have hp2 : p.2 ∈ lk := (hmemiff p.2).2 (hw.edgeMem p hp).2
        obtain ⟨hp1, hidx⟩ := hord p.1 p.2 harc hp2
        exact ⟨hp1, hp2, hidx⟩
  · rcases tarjan_cases g hdir with hres | ⟨lt2, hres⟩
    · exact absurd ((tarjan_spec g hw hdir).1.1 hres) (not_not_intro hacyc)
    · obtain ⟨hnd, hmemiff, hord⟩ := (tarjan_spec g hw hdir).2 lt2 hres
      refine ⟨lt2, hres, ?_, ?_⟩
      · exact (List.perm_ext_iff_of_nodup hnd (List.nodup_range _)).2
          (fun a => by rw [hmemiff a, List.mem_range])
      · intro p hp
        have harc := hedge p hp
        have hp2 : p.2 ∈ lt2 := (hmemiff p.2).2 (hw.edgeMem p hp).2
        obtain ⟨hp1, hidx⟩ := hord p.1 p.2 harc hp2
        exact ⟨hp1, hp2, hidx⟩

theorem topo_sorts_correct_witness :
    (∃ lk, gDag4.kahn_topological_sort = .order lk ∧
      lk.Perm (List.range gDag4.nodes) ∧
      (∀ p ∈ gDag4.edge_list, p.1 ∈ lk ∧ p.2 ∈ lk ∧
        idxOf p.1 lk < idxOf p.2 lk)) ∧
    (∃ lt2, gDag4.tarjan_topological_sort = .order lt2 ∧
      lt2.Perm (List.range gDag4.nodes) ∧
      (∀ p ∈ gDag4.edge_list, p.1 ∈ lt2 ∧ p.2 ∈ lt2 ∧
        idxOf p.1 lt2 < idxOf p.2 lt2)) :=
  topo_sorts_correct gDag4 (buildGraph_reachable 4 true _ (by decide))
    (by decide)
    (by
      by_contra hnA
      have hw4 : WF gDag4 :=
        WF_reachable _ (buildGraph_reachable 4 true _ (by decide))
      have hcd := (kahn_spec gDag4 hw4 (by decide)).1.2 hnA
      have hval : gDag4.kahn_topological_sort = .order [0, 1, 2, 3] := by
        simp [Graph.kahn_topological_sort, gDag4, buildGraph, Graph.construct,
          Graph.addEdgeOps, Graph.add_edge, Graph.insertArc, adjAppend, matSet,
          matGet, kahnInDegrees, incAt, kahnLoop_cons, kahnLoop_nil,
          kahnRelax_cons, kahnRelax_nil, List.range_succ]
      rw [hval] at hcd
      exact absurd hcd (by simp))

end AISD3
